import Mathlib

/-!
# Verification of the backtest trading simulator

Shallow embedding of `BacktestEngine._simulate_trading` (and the empty-data
short-circuit of `BacktestEngine.run`) from `app/backtester/engine.py`.

Money and prices are modelled as rationals (`ℚ`), share quantities as
integers (`ℤ`), instrument codes and trading dates as naturals (`ℕ`).
Python's float floor-division `//` is `Int.floor` of the rational quotient,
and integer floor-division is `Int.fdiv`.
-/

/-- A signal action: `buy`, `sell` or `hold` (column `signal`). -/
inductive SigAction where
  | buy
  | sell
  | hold
deriving DecidableEq, Repr

/-- Side of an executed trade (`trade_type` key of a trade record). -/
inductive TradeType where
  | buy
  | sell
deriving DecidableEq, Repr

/-- One row of `all_stocks_data`: an instrument's close price on a date. -/
structure PriceRow where
  stock_code : ℕ
  trade_date : ℕ
  close_price : ℚ
deriving DecidableEq, Repr

/-- One row of a per-instrument signal frame produced by
`_generate_all_signals`: the date, the signal and that date's close price. -/
structure SignalRow where
  trade_date : ℕ
  signal : SigAction
  close_price : ℚ
deriving DecidableEq, Repr

/-- An executed trade, as appended to the `trades` list. -/
structure Trade where
  stock_code : ℕ
  date : ℕ
  trade_type : TradeType
  price : ℚ
  quantity : ℤ
  amount : ℚ
  commission : ℚ
  cash_after : ℚ
deriving DecidableEq, Repr

/-- One `portfolio_history` record: `{'date': ..., 'total': ...}`. -/
structure Snapshot where
  date : ℕ
  total : ℚ
deriving DecidableEq, Repr

/-- The engine's configuration fields used by `_simulate_trading`. -/
structure Config where
  initial_capital : ℚ
  stock_codes : List ℕ
  commission_rate : ℚ
  slippage : ℚ

/-- `all_signals`: a dict from stock code to its signal frame. -/
abbrev Signals := List (ℕ × List SignalRow)

/-- The mutable state of the simulation loop: cash, the positions dict,
the trade ledger and the portfolio history, in insertion order. -/
structure SimState where
  cash : ℚ
  positions : ℕ → ℤ
  trades : List Trade
  history : List Snapshot

/-- Errors that abort `_simulate_trading`: an `IndexError` from valuing a
held position with no price row, or (unreachably) an empty date list at

forced liquidation. -/
inductive SimError where
  | missingPrice (code : ℕ) (d : ℕ)
  | noDates
deriving DecidableEq, Repr

/-- `all_signals.get(stock_code)`. -/
def lookupSignals : Signals → ℕ → Option (List SignalRow)
  | [], _ => none
  | p :: rest, code => if p.1 = code then some p.2 else lookupSignals rest code

/-- `stock_signals[stock_signals['trade_date'] == trade_date].iloc[0]`,
as an option (none when the filtered frame is empty). -/
def signalRowOn : List SignalRow → ℕ → Option SignalRow
  | [], _ => none
  | r :: rest, d => if r.trade_date = d then some r else signalRowOn rest d

/-- First `close_price` of `all_stocks_data` filtered to a date and code. -/
def priceLookup : List PriceRow → ℕ → ℕ → Option ℚ
  | [], _, _ => none
  | r :: rest, d, code =>
    if r.trade_date = d ∧ r.stock_code = code then some r.close_price
    else priceLookup rest d code

/-- Insert a date into an ascending duplicate-free list, keeping it so. -/
def insertAsc (x : ℕ) : List ℕ → List ℕ
  | [] => [x]
  | y :: ys =>
    if x < y then x :: y :: ys
    else if x = y then y :: ys
    else y :: insertAsc x ys

/-- `sorted(all_stocks_data['trade_date'].unique())`. -/
def tradeDates (data : List PriceRow) : List ℕ :=
  (data.map (·.trade_date)).foldr insertAsc []

/-- Sell pass for one stock code on date `d` (engine lines 147–172):
if the position is positive and the day's signal is `sell`, liquidate the
entire position at `close_price * (1 - slippage)`, charge commission on the

gross amount, zero the position and append a sell trade. -/
def sellOne (cfg : Config) (signals : Signals) (d : ℕ) (st : SimState)
    (code : ℕ) : SimState :=
  if 0 < st.positions code then
    match lookupSignals signals code with
    | none => st
    | some rows =>
      match signalRowOn rows d with
      | none => st
      | some row =>
        if row.signal = SigAction.sell then
          let executed_price := row.close_price * (1 - cfg.slippage)
          let quantity_to_sell := st.positions code
          let trade_amount := executed_price * (quantity_to_sell : ℚ)
          let commission := trade_amount * cfg.commission_rate
          let cash' := st.cash + (trade_amount - commission)
          { st with
            cash := cash'
            positions := fun c => if c = code then 0 else st.positions c
            trades := st.trades ++
              [{ stock_code := code, date := d, trade_type := TradeType.sell,
                 price := executed_price, quantity := quantity_to_sell,
                 amount := trade_amount, commission := commission,
                 cash_after := cash' }] }
        else st
  else st

/-- The whole sell pass: iterate `sellOne` over `self.stock_codes`. -/
def sellPass (cfg : Config) (signals : Signals) (d : ℕ) (st : SimState) :
    SimState :=
  cfg.stock_codes.foldl (sellOne cfg signals d) st

/-- Collect `buy_signals_today` (engine lines 176–187): flat instruments
whose signal on `d` is `buy`, in `stock_codes` order, with the signal row. -/
def buyCandidates (signals : Signals) (d : ℕ) (positions : ℕ → ℤ) :
    List ℕ → List (ℕ × SignalRow)
  | [] => []
  | code :: rest =>
    let tail := buyCandidates signals d positions rest
    if positions code = 0 then
      match lookupSignals signals code with
      | none => tail
      | some rows =>
        match signalRowOn rows d with
        | none => tail
        | some row =>
          if row.signal = SigAction.buy then (code, row) :: tail else tail
    else tail

/-- Execute one buy candidate (engine lines 191–211): quantity is the
floor of `capital_per_buy / executed_price` rounded down to a multiple of

100; below one lot nothing happens. -/
def buyOne (cfg : Config) (d : ℕ) (capital_per_buy : ℚ) (st : SimState)
    (cand : ℕ × SignalRow) : SimState :=
  let code := cand.1
  let executed_price := cand.2.close_price * (1 + cfg.slippage)
  let raw_qty : ℤ := Int.floor (capital_per_buy / executed_price)
  let quantity : ℤ := raw_qty.fdiv 100 * 100
  if 100 ≤ quantity then
    let trade_amount := executed_price * (quantity : ℚ)
    let commission := trade_amount * cfg.commission_rate
    let cash' := st.cash - (trade_amount + commission)
    { st with
      cash := cash'
      positions := fun c => if c = code then quantity else st.positions c
      trades := st.trades ++
        [{ stock_code := code, date := d, trade_type := TradeType.buy,
           price := executed_price, quantity := quantity,
           amount := trade_amount, commission := commission,
           cash_after := cash' }] }
  else st

/-- The whole buy pass (engine lines 189–211): runs only when there is at
least one candidate and `cash > 1`; splits the cash available after the

sell pass equally over all candidates. -/
def buyPass (cfg : Config) (signals : Signals) (d : ℕ) (st : SimState) :
    SimState :=
  let cands := buyCandidates signals d st.positions cfg.stock_codes
  if cands ≠ [] ∧ (1 : ℚ) < st.cash then
    let capital_per_buy := st.cash / (cands.length : ℚ)
    cands.foldl (buyOne cfg d capital_per_buy) st
  else st

/-- End-of-day valuation (engine lines 214–222): cash plus every held
position marked at that date's close price; a held position with no price

row raises (`.iloc[0]` on an empty frame). -/
def valueHeld (data : List PriceRow) (d : ℕ) (positions : ℕ → ℤ) :
    List ℕ → ℚ → Except SimError ℚ
  | [], acc => Except.ok acc
  | code :: rest, acc =>
    if 0 < positions code then
      match priceLookup data d code with
      | none => Except.error (SimError.missingPrice code d)
      | some p => valueHeld data d positions rest (acc + (positions code : ℚ) * p)
    else valueHeld data d positions rest acc

/-- One iteration of the daily loop (engine lines 144–224): sell pass,
then buy pass, then valuation and snapshot append. -/
def processDay (cfg : Config) (data : List PriceRow) (signals : Signals)
    (st : SimState) (d : ℕ) : Except SimError SimState :=
  let st1 := sellPass cfg signals d st
  let st2 := buyPass cfg signals d st1
  match valueHeld data d st2.positions cfg.stock_codes st2.cash with
  | Except.error e => Except.error e
  | Except.ok total =>
    Except.ok { st2 with history := st2.history ++ [{ date := d, total := total }] }

/-- The initial simulation state: `cash = self.initial_capital`, all
positions zero, empty ledger and history. -/
def simInit (cfg : Config) : SimState :=
  { cash := cfg.initial_capital, positions := fun _ => 0,
    trades := [], history := [] }

/-- The daily loop over the sorted unique trading dates. -/
def simulateLoop (cfg : Config) (data : List PriceRow) (signals : Signals) :
    Except SimError SimState :=
  (tradeDates data).foldlM (processDay cfg data signals) (simInit cfg)

/-- Forced liquidation of one stock (engine lines 231–263): a positive
position is sold at the last date's close with sell-side slippage and

commission; a missing price row is skipped with only a warning. -/
def liqOne (cfg : Config) (data : List PriceRow) (last_d : ℕ)
    (st : SimState) (code : ℕ) : SimState :=
  let qty := st.positions code
  if qty ≤ 0 then st
  else
    match priceLookup data last_d code with
    | none => st
    | some last_price =>
      let executed_price := last_price * (1 - cfg.slippage)
      let trade_amount := (qty : ℚ) * executed_price
      let commission := trade_amount * cfg.commission_rate
      let cash' := st.cash + (trade_amount - commission)
      { st with
        cash := cash'
        positions := fun c => if c = code then 0 else st.positions c
        trades := st.trades ++
          [{ stock_code := code, date := last_d, trade_type := TradeType.sell,
             price := executed_price, quantity := qty,
             amount := trade_amount, commission := commission,
             cash_after := cash' }] }

/-- Rewrite the last history record to cash-only value (engine lines
266–269): overwrite it when its date is the liquidation date, otherwise

append a fresh record. -/
def fixHistory (last_d : ℕ) (cash : ℚ) (h : List Snapshot) : List Snapshot :=
  match h.getLast? with
  | some s =>
    if s.date = last_d then h.dropLast ++ [{ date := s.date, total := cash }]
    else h ++ [{ date := last_d, total := cash }]
  | none => h ++ [{ date := last_d, total := cash }]

/-- The post-loop forced liquidation block (engine lines 228–269). -/
def forcedLiquidation (cfg : Config) (data : List PriceRow) (last_d : ℕ)
    (st : SimState) : SimState :=
  let st' := cfg.stock_codes.foldl (liqOne cfg data last_d) st
  { st' with history := fixHistory last_d st'.cash st'.history }

/-- `_simulate_trading`: the daily loop followed by forced liquidation
when some position is still open. -/
def simulate_trading (cfg : Config) (data : List PriceRow)
    (signals : Signals) : Except SimError SimState := do
  let st ← simulateLoop cfg data signals
  if ∃ c ∈ cfg.stock_codes, 0 < st.positions c then
    match (tradeDates data).getLast? with
    | none => Except.error SimError.noDates
    | some last_d => Except.ok (forcedLiquidation cfg data last_d st)
  else
    Except.ok st

/-- `run` up to its simulation step: an empty price universe short-circuits
to no result before the loop is entered (engine lines 60–63); otherwise the

simulation's outcome is returned. -/
def runSim (cfg : Config) (data : List PriceRow) (signals : Signals) :
    Except SimError (Option SimState) :=
  if data.isEmpty then Except.ok none
  else (simulate_trading cfg data signals).map some

/-- Every position is a non-negative integer multiple of the lot size 100. -/
def PosOK (st : SimState) : Prop :=
  ∀ c, 0 ≤ st.positions c ∧ (100 : ℤ) ∣ st.positions c

/-- Replay one recorded trade against a (cash, positions) state: a sell
adds `amount - commission` and zeroes the position, a buy subtracts
`amount + commission` and installs the recorded quantity. -/
def replayTrade (s : ℚ × (ℕ → ℤ)) (t : Trade) : ℚ × (ℕ → ℤ) :=
  match t.trade_type with
  | TradeType.sell =>
      (s.1 + (t.amount - t.commission),
       fun c => if c = t.stock_code then 0 else s.2 c)
  | TradeType.buy =>
      (s.1 - (t.amount + t.commission),
       fun c => if c = t.stock_code then t.quantity else s.2 c)

/-- Replay a whole ledger in append order. -/
def replay (init : ℚ × (ℕ → ℤ)) (ts : List Trade) : ℚ × (ℕ → ℤ) :=
  ts.foldl replayTrade init

/-- Every recorded trade's `cash_after` equals the replayed running cash. -/
def CashChain (init : ℚ × (ℕ → ℤ)) : List Trade → Prop
  | [] => True
  | t :: rest =>
      t.cash_after = (replayTrade init t).1 ∧ CashChain (replayTrade init t) rest

/-- The simulation state agrees with the replay of its own ledger. -/
def ReplayInv (init : ℚ × (ℕ → ℤ)) (st : SimState) : Prop :=
  st.cash = (replay init st.trades).1 ∧
  (∀ c, st.positions c = (replay init st.trades).2 c) ∧
  CashChain init st.trades

/-- Scenario A of the specification: one instrument, three dates, prices
10 / 12 / 8, signals hold / buy / sell, capital 10000, no frictions. -/
def cfgA : Config :=
  { initial_capital := 10000, stock_codes := [0],
    commission_rate := 0, slippage := 0 }


def dataA : List PriceRow := [⟨0, 1, 10⟩, ⟨0, 2, 12⟩, ⟨0, 3, 8⟩]


def sigsA : Signals :=
  [(0, [⟨1, SigAction.hold, 10⟩, ⟨2, SigAction.buy, 12⟩, ⟨3, SigAction.sell, 8⟩])]

/-- A run that buys at full capital with a positive commission rate:
price 1, commission 10%. -/
def cfgN : Config :=
  { initial_capital := 10000, stock_codes := [0],
    commission_rate := 1 / 10, slippage := 0 }


def dataN : List PriceRow := [⟨0, 1, 1⟩]


def sigsN : Signals := [(0, [⟨1, SigAction.buy, 1⟩])]

/-- A one-date run whose buy is force-liquidated on the same date. -/
def cfgL : Config :=
  { initial_capital := 10000, stock_codes := [0],
    commission_rate := 0, slippage := 0 }


def dataL : List PriceRow := [⟨0, 1, 10⟩]


def sigsL : Signals := [(0, [⟨1, SigAction.buy, 10⟩])]

/-- A run whose instrument 0 is held on date 2 but has no date-2 price. -/
def cfgM : Config :=
  { initial_capital := 10000, stock_codes := [0, 1],
    commission_rate := 0, slippage := 0 }


def dataM : List PriceRow := [⟨0, 1, 10⟩, ⟨1, 1, 5⟩, ⟨1, 2, 5⟩]


def sigsM : Signals :=
  [(0, [⟨1, SigAction.buy, 10⟩]),
   (1, [⟨1, SigAction.hold, 5⟩, ⟨2, SigAction.hold, 5⟩])]

/-- No buy trade precedes a sell trade of the same date. -/
def BuySellOrdOK (ts : List Trade) : Prop :=
  List.Pairwise (fun a b => a.trade_type = TradeType.buy →
    b.trade_type = TradeType.sell → a.date ≠ b.date) ts

/-- Trade dates are non-decreasing in append order. -/
def DatesMono (ts : List Trade) : Prop :=
  List.Pairwise (fun a b => a.date ≤ b.date) ts

/-- Two flat instruments, both buy-signalled on the same date. -/
def cfgW : Config :=
  { initial_capital := 10000, stock_codes := [0, 1],
    commission_rate := 0, slippage := 0 }


def sigsW : Signals :=
  [(0, [⟨1, SigAction.buy, 40⟩]), (1, [⟨1, SigAction.buy, 60⟩])]


def stW : SimState :=
  { cash := 10000, positions := fun _ => 0, trades := [], history := [] }

/-! ## Generic fold helpers -/

theorem foldl_preserve {α : Type} {f : SimState → α → SimState}
    {P : SimState → Prop} (hf : ∀ s x, P s → P (f s x)) :
    ∀ (l : List α) (st : SimState), P st → P (List.foldl f st l)
  | [], _, h => h
  | x :: l, st, h => foldl_preserve hf l (f st x) (hf st x h)


theorem foldlM_preserve {α : Type} {f : SimState → α → Except SimError SimState}
    {P : SimState → Prop}
    (hf : ∀ s x s', f s x = Except.ok s' → P s → P s') :
    ∀ (l : List α) (st st' : SimState),
      List.foldlM f st l = Except.ok st' → P st → P st'
  | [], st, st', h, hP => by
      simp only [List.foldlM_nil, pure, Except.pure, Except.ok.injEq] at h
      exact h ▸ hP
  | x :: l, st, st', h, hP => by
      rw [List.foldlM_cons] at h
      cases hfx : f st x with
      | error e => rw [hfx] at h; simp [Bind.bind, Except.bind] at h
      | ok s1 =>
          rw [hfx] at h
          simp only [Bind.bind, Except.bind] at h
          exact foldlM_preserve hf l s1 st' h (hf st x s1 hfx hP)


theorem foldl_trades_ext {α : Type} {f : SimState → α → SimState}
    {Q : Trade → Prop}
    (hf : ∀ s x, ∃ n, (f s x).trades = s.trades ++ n ∧ ∀ t ∈ n, Q t) :
    ∀ (l : List α) (st : SimState),
      ∃ n, (List.foldl f st l).trades = st.trades ++ n ∧ ∀ t ∈ n, Q t
  | [], _ => ⟨[], by simp⟩
  | x :: l, st => by
      obtain ⟨n1, h1, hq1⟩ := hf st x
      obtain ⟨n2, h2, hq2⟩ := foldl_trades_ext hf l (f st x)
      refine ⟨n1 ++ n2, by simp [List.foldl, h2, h1], ?_⟩
      intro t ht
      rcases List.mem_append.1 ht with h | h
      · exact hq1 t h
      · exact hq2 t h

/-! ## Shapes of the elementary steps -/

theorem sellOne_history (cfg : Config) (signals : Signals) (d : ℕ)
    (st : SimState) (code : ℕ) :
    (sellOne cfg signals d st code).history = st.history := by
  unfold sellOne
  repeat' split
  all_goals rfl


theorem buyOne_history (cfg : Config) (d : ℕ) (cap : ℚ) (st : SimState)
    (cand : ℕ × SignalRow) :
    (buyOne cfg d cap st cand).history = st.history := by
  unfold buyOne
  dsimp only
  split
  all_goals rfl


theorem liqOne_history (cfg : Config) (data : List PriceRow) (last_d : ℕ)
    (st : SimState) (code : ℕ) :
    (liqOne cfg data last_d st code).history = st.history := by
  unfold liqOne
  dsimp only
  repeat' split
  all_goals rfl


theorem sellOne_shape (cfg : Config) (signals : Signals) (d : ℕ)
    (st : SimState) (code : ℕ) :
    ∃ n, (sellOne cfg signals d st code).trades = st.trades ++ n ∧
      ∀ t ∈ n, t.trade_type = TradeType.sell ∧ t.date = d ∧
        t.stock_code = code := by
  unfold sellOne
  repeat' split
  all_goals
    first
      | (refine ⟨_, rfl, ?_⟩
         intro t ht
         simp only [List.mem_singleton] at ht
         subst ht
         exact ⟨rfl, rfl, rfl⟩)
      | exact ⟨[], by simp, by simp⟩


theorem buyOne_shape (cfg : Config) (d : ℕ) (cap : ℚ) (st : SimState)
    (cand : ℕ × SignalRow) :
    ∃ n, (buyOne cfg d cap st cand).trades = st.trades ++ n ∧
      ∀ t ∈ n, t.trade_type = TradeType.buy ∧ t.date = d ∧
        t.stock_code = cand.1 := by
  unfold buyOne
  dsimp only
  split
  all_goals
    first
      | (refine ⟨_, rfl, ?_⟩
         intro t ht
         simp only [List.mem_singleton] at ht
         subst ht
         exact ⟨rfl, rfl, rfl⟩)
      | exact ⟨[], by simp, by simp⟩


theorem liqOne_shape (cfg : Config) (data : List PriceRow) (last_d : ℕ)
    (st : SimState) (code : ℕ) :
    ∃ n, (liqOne cfg data last_d st code).trades = st.trades ++ n ∧
      ∀ t ∈ n, t.trade_type = TradeType.sell ∧ t.date = last_d ∧
        t.stock_code = code := by
  unfold liqOne
  dsimp only
  repeat' split
  all_goals
    first
      | (refine ⟨_, rfl, ?_⟩
         intro t ht
         simp only [List.mem_singleton] at ht
         subst ht
         exact ⟨rfl, rfl, rfl⟩)
      | exact ⟨[], by simp, by simp⟩


theorem sellPass_history (cfg : Config) (signals : Signals) (d : ℕ)
    (st : SimState) : (sellPass cfg signals d st).history = st.history := by
  unfold sellPass
  have : ∀ l s, (List.foldl (sellOne cfg signals d) s l).history = s.history := by
    intro l
    induction l with
    | nil => intro s; rfl
    | cons x xs ih => intro s; simp [List.foldl, ih, sellOne_history]
  exact this _ _


theorem buyPass_history (cfg : Config) (signals : Signals) (d : ℕ)
    (st : SimState) : (buyPass cfg signals d st).history = st.history := by
  unfold buyPass
  dsimp only
  split
  · have : ∀ l cap s, (List.foldl (buyOne cfg d cap) s l).history = s.history := by
      intro l
      induction l with
      | nil => intro cap s; rfl
      | cons x xs ih => intro cap s; simp [List.foldl, ih, buyOne_history]
    exact this _ _ _
  · rfl


theorem sellPass_shape (cfg : Config) (signals : Signals) (d : ℕ)
    (st : SimState) :
    ∃ n, (sellPass cfg signals d st).trades = st.trades ++ n ∧
      ∀ t ∈ n, t.trade_type = TradeType.sell ∧ t.date = d := by
  unfold sellPass
  exact foldl_trades_ext (fun s c => by
    obtain ⟨n, hn, hq⟩ := sellOne_shape cfg signals d s c
    exact ⟨n, hn, fun t ht => ⟨(hq t ht).1, (hq t ht).2.1⟩⟩) _ st


theorem buyPass_shape (cfg : Config) (signals : Signals) (d : ℕ)
    (st : SimState) :
    ∃ n, (buyPass cfg signals d st).trades = st.trades ++ n ∧
      ∀ t ∈ n, t.trade_type = TradeType.buy ∧ t.date = d := by
  unfold buyPass
  dsimp only
  split
  · exact foldl_trades_ext (fun s c => by
      obtain ⟨n, hn, hq⟩ := buyOne_shape cfg d _ s c
      exact ⟨n, hn, fun t ht => ⟨(hq t ht).1, (hq t ht).2.1⟩⟩) _ st
  · exact ⟨[], by simp⟩

/-! ## Position invariant: non-negative multiples of the lot size -/


theorem posOK_sellOne (cfg : Config) (signals : Signals) (d : ℕ)
    (st : SimState) (code : ℕ) (h : PosOK st) :
    PosOK (sellOne cfg signals d st code) := by
  unfold sellOne
  repeat' split
  all_goals try exact h
  intro c
  dsimp only
  split
  · exact ⟨le_refl 0, dvd_zero 100⟩
  · exact h c


theorem posOK_buyOne (cfg : Config) (d : ℕ) (cap : ℚ) (st : SimState)
    (cand : ℕ × SignalRow) (h : PosOK st) :
    PosOK (buyOne cfg d cap st cand) := by
  unfold buyOne
  dsimp only
  split
  · rename_i hq
    intro c
    dsimp only
    split
    · exact ⟨le_trans (by norm_num) hq, dvd_mul_left 100 _⟩
    · exact h c
  · exact h


theorem posOK_liqOne (cfg : Config) (data : List PriceRow) (last_d : ℕ)
    (st : SimState) (code : ℕ) (h : PosOK st) :
    PosOK (liqOne cfg data last_d st code) := by
  unfold liqOne
  dsimp only
  repeat' split
  all_goals try exact h
  intro c
  dsimp only
  split
  · exact ⟨le_refl 0, dvd_zero 100⟩
  · exact h c


theorem posOK_sellPass (cfg : Config) (signals : Signals) (d : ℕ)
    (st : SimState) (h : PosOK st) : PosOK (sellPass cfg signals d st) :=
  foldl_preserve (fun s c => posOK_sellOne cfg signals d s c) _ st h


theorem posOK_buyPass (cfg : Config) (signals : Signals) (d : ℕ)
    (st : SimState) (h : PosOK st) : PosOK (buyPass cfg signals d st) := by
  unfold buyPass
  dsimp only
  split
  · exact foldl_preserve (fun s x => posOK_buyOne cfg d _ s x) _ st h
  · exact h

/-- Destructor for a successful `processDay`: the resulting state is the
post-buy state with one snapshot appended, and the valuation succeeded. -/
theorem processDay_ok {cfg : Config} {data : List PriceRow}
    {signals : Signals} {st : SimState} {d : ℕ} {st' : SimState}
    (h : processDay cfg data signals st d = Except.ok st') :
    ∃ total,
      valueHeld data d (buyPass cfg signals d (sellPass cfg signals d st)).positions
        cfg.stock_codes (buyPass cfg signals d (sellPass cfg signals d st)).cash =
        Except.ok total ∧
      st' = { buyPass cfg signals d (sellPass cfg signals d st) with
              history := (buyPass cfg signals d (sellPass cfg signals d st)).history
                ++ [{ date := d, total := total }] } := by
  unfold processDay at h
  dsimp only at h
  split at h
  · exact absurd h (by simp)
  · rename_i total heq
    refine ⟨total, heq, ?_⟩
    cases h
    rfl


theorem posOK_processDay {cfg : Config} {data : List PriceRow}
    {signals : Signals} {st : SimState} {d : ℕ} {st' : SimState}
    (h : processDay cfg data signals st d = Except.ok st') (hP : PosOK st) :
    PosOK st' := by
  obtain ⟨total, -, rfl⟩ := processDay_ok h
  intro c
  exact posOK_buyPass cfg signals d _ (posOK_sellPass cfg signals d st hP) c


theorem posOK_simInit (cfg : Config) : PosOK (simInit cfg) :=
  fun _ => ⟨le_refl 0, dvd_zero 100⟩


theorem posOK_liqFold (cfg : Config) (data : List PriceRow) (last_d : ℕ) :
    ∀ (l : List ℕ) (st : SimState), PosOK st →
      PosOK (List.foldl (liqOne cfg data last_d) st l) :=
  fun l st h => foldl_preserve (fun s c => posOK_liqOne cfg data last_d s c) l st h


theorem posOK_simulate {cfg : Config} {data : List PriceRow}
    {signals : Signals} {r : SimState}
    (h : simulate_trading cfg data signals = Except.ok r) : PosOK r := by
  unfold simulate_trading at h
  cases hloop : simulateLoop cfg data signals with
  | error e => rw [hloop] at h; simp [Bind.bind, Except.bind] at h
  | ok st =>
    rw [hloop] at h
    simp only [Bind.bind, Except.bind] at h
    have hst : PosOK st :=
      foldlM_preserve (fun s d s' hok hP => posOK_processDay hok hP) _ _ _ hloop
        (posOK_simInit cfg)
    split at h
    · split at h
      · simp at h
      · cases h
        intro c
        exact posOK_liqFold cfg data _ _ _ hst c
    · cases h
      exact hst

/-- Extract the underlying success value from a mapped `Except`. -/
theorem exceptMap_ok {α β : Type} {f : α → β} {e : Except SimError α} {b : β}
    (h : Except.map f e = Except.ok b) : ∃ a, e = Except.ok a ∧ f a = b := by
  cases e with
  | error e => simp [Except.map] at h
  | ok a => refine ⟨a, rfl, ?_⟩; simpa [Except.map] using h

/-! ## Replay of the trade ledger -/


theorem cashChain_append {init : ℚ × (ℕ → ℤ)} {ts : List Trade} {t : Trade}
    (h : CashChain init ts) (ht : t.cash_after = (replay init (ts ++ [t])).1) :
    CashChain init (ts ++ [t]) := by
  induction ts generalizing init with
  | nil => exact ⟨by simpa [replay, CashChain] using ht, trivial⟩
  | cons a rest ih =>
      exact ⟨h.1, ih h.2 (by simpa [replay, List.foldl] using ht)⟩

/-- A sell-shaped append (used by the sell pass and forced liquidation)
preserves the replay invariant. -/
theorem replayInv_sell_step {init : ℚ × (ℕ → ℤ)} {st : SimState}
    (code d : ℕ) (q : ℤ) (ep amt com : ℚ) (h : ReplayInv init st) :
    ReplayInv init
      { st with
        cash := st.cash + (amt - com),
        positions := fun c => if c = code then 0 else st.positions c,
        trades := st.trades ++
          [{ stock_code := code, date := d, trade_type := TradeType.sell,
             price := ep, quantity := q, amount := amt, commission := com,
             cash_after := st.cash + (amt - com) }] } := by
  obtain ⟨hc, hp, hchain⟩ := h
  have hrep : (replay init (st.trades ++
      [{ stock_code := code, date := d, trade_type := TradeType.sell,
         price := ep, quantity := q, amount := amt, commission := com,
         cash_after := st.cash + (amt - com) }])).1 = st.cash + (amt - com) := by
    simp [replay, List.foldl_append, replayTrade, hc]
  refine ⟨hrep.symm, ?_, cashChain_append hchain hrep.symm⟩
  intro c
  simp only [replay, List.foldl_append, List.foldl, replayTrade]
  try dsimp only
  split
  · rfl
  · exact hp c

/-- A buy-shaped append preserves the replay invariant. -/
theorem replayInv_buy_step {init : ℚ × (ℕ → ℤ)} {st : SimState}
    (code d : ℕ) (q : ℤ) (ep amt com : ℚ) (h : ReplayInv init st) :
    ReplayInv init
      { st with
        cash := st.cash - (amt + com),
        positions := fun c => if c = code then q else st.positions c,
        trades := st.trades ++
          [{ stock_code := code, date := d, trade_type := TradeType.buy,
             price := ep, quantity := q, amount := amt, commission := com,
             cash_after := st.cash - (amt + com) }] } := by
  obtain ⟨hc, hp, hchain⟩ := h
  have hrep : (replay init (st.trades ++
      [{ stock_code := code, date := d, trade_type := TradeType.buy,
         price := ep, quantity := q, amount := amt, commission := com,
         cash_after := st.cash - (amt + com) }])).1 = st.cash - (amt + com) := by
    simp [replay, List.foldl_append, replayTrade, hc]
  refine ⟨hrep.symm, ?_, cashChain_append hchain hrep.symm⟩
  intro c
  simp only [replay, List.foldl_append, List.foldl, replayTrade]
  try dsimp only
  split
  · rfl
  · exact hp c


theorem replayInv_sellOne {init : ℚ × (ℕ → ℤ)} (cfg : Config)
    (signals : Signals) (d : ℕ) (st : SimState) (code : ℕ)
    (h : ReplayInv init st) : ReplayInv init (sellOne cfg signals d st code) := by
  unfold sellOne
  repeat' split
  all_goals try exact h
  exact replayInv_sell_step code d _ _ _ _ h


theorem replayInv_buyOne {init : ℚ × (ℕ → ℤ)} (cfg : Config) (d : ℕ)
    (cap : ℚ) (st : SimState) (cand : ℕ × SignalRow)
    (h : ReplayInv init st) : ReplayInv init (buyOne cfg d cap st cand) := by
  unfold buyOne
  dsimp only
  split
  · exact replayInv_buy_step cand.1 d _ _ _ _ h
  · exact h


theorem replayInv_liqOne {init : ℚ × (ℕ → ℤ)} (cfg : Config)
    (data : List PriceRow) (last_d : ℕ) (st : SimState) (code : ℕ)
    (h : ReplayInv init st) : ReplayInv init (liqOne cfg data last_d st code) := by
  unfold liqOne
  dsimp only
  repeat' split
  all_goals try exact h
  exact replayInv_sell_step code last_d _ _ _ _ h


theorem replayInv_buyPass {init : ℚ × (ℕ → ℤ)} (cfg : Config)
    (signals : Signals) (d : ℕ) (st : SimState)
    (h : ReplayInv init st) : ReplayInv init (buyPass cfg signals d st) := by
  unfold buyPass
  dsimp only
  split
  · exact foldl_preserve (fun s x => replayInv_buyOne cfg d _ s x) _ st h
  · exact h


theorem replayInv_processDay {cfg : Config} {data : List PriceRow}
    {signals : Signals} {st : SimState} {d : ℕ} {st' : SimState}
    (h : processDay cfg data signals st d = Except.ok st')
    (hinv : ReplayInv (cfg.initial_capital, fun _ => 0) st) :
    ReplayInv (cfg.initial_capital, fun _ => 0) st' := by
  obtain ⟨total, -, rfl⟩ := processDay_ok h
  exact replayInv_buyPass cfg signals d _
    (foldl_preserve (fun s c => replayInv_sellOne cfg signals d s c) _ st hinv)


theorem replayInv_simulate {cfg : Config} {data : List PriceRow}
    {signals : Signals} {r : SimState}
    (h : simulate_trading cfg data signals = Except.ok r) :
    ReplayInv (cfg.initial_capital, fun _ => 0) r := by
  unfold simulate_trading at h
  cases hloop : simulateLoop cfg data signals with
  | error e => rw [hloop] at h; simp [Bind.bind, Except.bind] at h
  | ok st =>
    rw [hloop] at h
    simp only [Bind.bind, Except.bind] at h
    have hst : ReplayInv (cfg.initial_capital, fun _ => 0) st :=
      foldlM_preserve (fun s d s' hok hP => replayInv_processDay hok hP) _ _ _ hloop
        ⟨rfl, fun _ => rfl, trivial⟩
    split at h
    · split at h
      · simp at h
      · cases h
        exact foldl_preserve
          (fun s c => replayInv_liqOne cfg data _ s c) _ st hst
    · cases h
      exact hst

/-! ## Claim theorems: invariants C5, C6 and the empty-universe case C9 -/

/-- C6: after every processed prefix of trading dates, every instrument's
position is a non-negative integer multiple of the lot size 100 (positions
start at zero, buys install multiples of 100, sells reset to zero), and the

same holds for the final state returned by `_simulate_trading`. -/
theorem C6_positions_lot_multiples (cfg : Config) (data : List PriceRow)
    (signals : Signals) :
    (∀ (l : List ℕ) (st : SimState),
      List.foldlM (processDay cfg data signals) (simInit cfg) l = Except.ok st →
      ∀ c, 0 ≤ st.positions c ∧ (100 : ℤ) ∣ st.positions c) ∧
    (∀ r, simulate_trading cfg data signals = Except.ok r →
      ∀ c, 0 ≤ r.positions c ∧ (100 : ℤ) ∣ r.positions c) :=
  ⟨fun l st h c =>
      foldlM_preserve (fun _ _ _ hok hP => posOK_processDay hok hP) l _ st h
        (posOK_simInit cfg) c,
   fun _ h c => posOK_simulate h c⟩

/-- C5: replaying the TradeLedger in append order from `initial_capital`
and all-zero positions reproduces the final cash and final position state,
and every recorded trade's `cash_after` equals the running replay balance
(sells add gross minus commission and zero the position, buys subtract

gross plus commission and install the recorded quantity). -/
theorem C5_replay_law (cfg : Config) (data : List PriceRow)
    (signals : Signals) (r : SimState)
    (h : simulate_trading cfg data signals = Except.ok r) :
    (replay (cfg.initial_capital, fun _ => 0) r.trades).1 = r.cash ∧
    (∀ c, (replay (cfg.initial_capital, fun _ => 0) r.trades).2 c = r.positions c) ∧
    CashChain (cfg.initial_capital, fun _ => 0) r.trades := by
  obtain ⟨hc, hp, hchain⟩ := replayInv_simulate h
  exact ⟨hc.symm, fun c => (hp c).symm, hchain⟩

/-- C9: with an empty price universe the run short-circuits: no result is
produced, the date universe is empty, and the daily loop never executes a

single iteration (it would return the untouched initial state). -/
theorem C9_empty_universe (cfg : Config) (signals : Signals) :
    runSim cfg [] signals = Except.ok none ∧
    tradeDates [] = [] ∧
    simulateLoop cfg [] signals = Except.ok (simInit cfg) := by
  refine ⟨by simp [runSim], rfl, ?_⟩
  simp [simulateLoop, tradeDates, List.foldlM, pure, Except.pure]

/-! ## Concrete runs -/

theorem floor_2500_3 : (⌊(2500 : ℚ) / 3⌋ : ℤ) = 833 := by
  rw [show ((2500 : ℚ) / 3) = ((2500 : ℤ) : ℚ) / ((3 : ℕ) : ℚ) by norm_num,
    Rat.floor_intCast_div_natCast]
  decide


theorem floor_250_3 : (⌊(250 : ℚ) / 3⌋ : ℤ) = 83 := by
  rw [show ((250 : ℚ) / 3) = ((250 : ℤ) : ℚ) / ((3 : ℕ) : ℚ) by norm_num,
    Rat.floor_intCast_div_natCast]
  decide


theorem fdiv_833 : (833 : ℤ).fdiv 100 = 8 := by decide


theorem fdiv_1000 : (1000 : ℤ).fdiv 100 = 10 := by decide


theorem fdiv_10000 : (10000 : ℤ).fdiv 100 = 100 := by decide


theorem fdiv_125 : (125 : ℤ).fdiv 100 = 1 := by decide


theorem fdiv_83 : (83 : ℤ).fdiv 100 = 0 := by decide


theorem scenA_cash :
    (simulate_trading cfgA dataA sigsA).map SimState.cash = Except.ok 6800 := by
  norm_num [simulate_trading, simulateLoop, simInit, tradeDates, insertAsc,
    List.foldlM, processDay, sellPass, buyPass, sellOne, buyOne,
    buyCandidates, valueHeld, lookupSignals, signalRowOn, priceLookup,
    List.foldl, cfgA, dataA, sigsA, Except.map, Except.bind, Bind.bind,
    Pure.pure, Except.pure, floor_2500_3, fdiv_833]


theorem scenA_trades :
    (simulate_trading cfgA dataA sigsA).map SimState.trades = Except.ok
      [{ stock_code := 0, date := 2, trade_type := TradeType.buy, price := 12,
         quantity := 800, amount := 9600, commission := 0, cash_after := 400 },
       { stock_code := 0, date := 3, trade_type := TradeType.sell, price := 8,
         quantity := 800, amount := 6400, commission := 0, cash_after := 6800 }] := by
  norm_num [simulate_trading, simulateLoop, simInit, tradeDates, insertAsc,
    List.foldlM, processDay, sellPass, buyPass, sellOne, buyOne,
    buyCandidates, valueHeld, lookupSignals, signalRowOn, priceLookup,
    List.foldl, cfgA, dataA, sigsA, Except.map, Except.bind, Bind.bind,
    Pure.pure, Except.pure, floor_2500_3, fdiv_833]


theorem scenA_history :
    (simulate_trading cfgA dataA sigsA).map SimState.history = Except.ok
      [{ date := 1, total := 10000 }, { date := 2, total := 10000 },
       { date := 3, total := 6800 }] := by
  norm_num [simulate_trading, simulateLoop, simInit, tradeDates, insertAsc,
    List.foldlM, processDay, sellPass, buyPass, sellOne, buyOne,
    buyCandidates, valueHeld, lookupSignals, signalRowOn, priceLookup,
    List.foldl, cfgA, dataA, sigsA, Except.map, Except.bind, Bind.bind,
    Pure.pure, Except.pure, floor_2500_3, fdiv_833]

/-- C8: Scenario A is executed exactly as the specification computes it:
buy 800 shares at 12 on date 2 for 9600, sell them at 8 on date 3 for

6400, final cash 6800, final snapshot total 6800. -/
theorem C8_scenario_A :
    (simulate_trading cfgA dataA sigsA).map SimState.cash = Except.ok 6800 ∧
    (simulate_trading cfgA dataA sigsA).map SimState.trades = Except.ok
      [{ stock_code := 0, date := 2, trade_type := TradeType.buy, price := 12,
         quantity := 800, amount := 9600, commission := 0, cash_after := 400 },
       { stock_code := 0, date := 3, trade_type := TradeType.sell, price := 8,
         quantity := 800, amount := 6400, commission := 0, cash_after := 6800 }] ∧
    (simulate_trading cfgA dataA sigsA).map SimState.history = Except.ok
      [{ date := 1, total := 10000 }, { date := 2, total := 10000 },
       { date := 3, total := 6800 }] :=
  ⟨scenA_cash, scenA_trades, scenA_history⟩

/-- C2 counterexample: with a positive commission rate (10%), the buy of
date 1 in the `cfgN` run debits gross plus commission and leaves the cash

balance at −1000 < 0 immediately after the buy. -/
theorem C2_counterexample :
    ∃ ts, (simulate_trading cfgN dataN sigsN).map SimState.trades = Except.ok ts ∧
      ∃ t ∈ ts, t.trade_type = TradeType.buy ∧ t.cash_after < 0 := by
  refine ⟨[{ stock_code := 0, date := 1, trade_type := TradeType.buy, price := 1,
             quantity := 10000, amount := 10000, commission := 1000,
             cash_after := -1000 },
           { stock_code := 0, date := 1, trade_type := TradeType.sell, price := 1,
             quantity := 10000, amount := 10000, commission := 1000,
             cash_after := 8000 }], ?_, ?_⟩
  · norm_num [simulate_trading, simulateLoop, simInit, tradeDates, insertAsc,
      List.foldlM, processDay, sellPass, buyPass, sellOne, buyOne,
      buyCandidates, valueHeld, lookupSignals, signalRowOn, priceLookup,
      List.foldl, forcedLiquidation, liqOne, fixHistory, cfgN, dataN, sigsN,
      Except.map, Except.bind, Bind.bind, Pure.pure, Except.pure, fdiv_10000]
  · exact ⟨_, List.mem_cons_self _ _, rfl, by norm_num⟩

/-! ## C2: buys and the cash floor -/

/-- If the lot-rounded affordable quantity reaches one lot, the execution
price is positive and the gross cost of the rounded quantity is at most

the allocated capital. -/
theorem exec_le_alloc {alloc ep : ℚ} (halloc : 0 < alloc)
    (h100 : (100 : ℤ) ≤ (⌊alloc / ep⌋).fdiv 100 * 100) :
    0 < ep ∧ ep * (((⌊alloc / ep⌋).fdiv 100 * 100 : ℤ) : ℚ) ≤ alloc := by
  have hfd : (⌊alloc / ep⌋).fdiv 100 = ⌊alloc / ep⌋ / 100 :=
    Int.fdiv_eq_ediv _ (by norm_num)
  have hqraw : (⌊alloc / ep⌋).fdiv 100 * 100 ≤ ⌊alloc / ep⌋ := by
    rw [hfd]; exact Int.ediv_mul_le _ (by norm_num)
  have h100raw : (100 : ℤ) ≤ ⌊alloc / ep⌋ := le_trans h100 hqraw
  have hfl : ((100 : ℤ) : ℚ) ≤ alloc / ep :=
    le_trans (Int.cast_le.2 h100raw) (Int.floor_le _)
  have hfl' : (100 : ℚ) ≤ alloc / ep := by exact_mod_cast hfl
  have hep : 0 < ep := by
    rcases lt_trichotomy ep 0 with h | h | h
    · exact absurd hfl' (by
        have : alloc / ep < 0 := div_neg_of_pos_of_neg halloc h
        linarith)
    · rw [h, div_zero] at hfl'; linarith
    · exact h
  refine ⟨hep, ?_⟩
  have hcast : (((⌊alloc / ep⌋).fdiv 100 * 100 : ℤ) : ℚ) ≤ ((⌊alloc / ep⌋ : ℤ) : ℚ) :=
    Int.cast_le.2 hqraw
  have hq_le : (((⌊alloc / ep⌋).fdiv 100 * 100 : ℤ) : ℚ) ≤ alloc / ep :=
    le_trans hcast (Int.floor_le _)
  have := (le_div_iff₀ hep).1 hq_le
  linarith

/-- In a buy pass with zero commission, each executed candidate debits at
most its allocation, so every buy trade it appends leaves the cash balance

non-negative. -/
theorem buyFold_cash_floor (cfg : Config) (hcr : cfg.commission_rate = 0)
    (d : ℕ) (alloc : ℚ) (halloc : 0 < alloc) :
    ∀ (l : List (ℕ × SignalRow)) (st : SimState),
      (l.length : ℚ) * alloc ≤ st.cash →
      (∀ t ∈ st.trades, t.trade_type = TradeType.buy → 0 ≤ t.cash_after) →
      ∀ t ∈ (List.foldl (buyOne cfg d alloc) st l).trades,
        t.trade_type = TradeType.buy → 0 ≤ t.cash_after
  | [], _, _, htr => htr
  | (c, row) :: l, st, hcash, htr => by
      rw [List.foldl_cons]
      have hlen : ((l.length : ℚ)) * alloc + alloc ≤ st.cash := by
        have : (((c, row) :: l).length : ℚ) = (l.length : ℚ) + 1 := by
          push_cast [List.length_cons]; ring
        rw [this] at hcash; linarith
      have hlen0 : (0 : ℚ) ≤ (l.length : ℚ) * alloc := by positivity
      unfold buyOne
      dsimp only
      split
      · rename_i hq
        obtain ⟨hep, hle⟩ := exec_le_alloc halloc hq
        apply buyFold_cash_floor cfg hcr d alloc halloc l
        · dsimp only
          rw [hcr]
          have : row.close_price * (1 + cfg.slippage) *
              (((⌊alloc / (row.close_price * (1 + cfg.slippage))⌋).fdiv 100 * 100 : ℤ) : ℚ)
              ≤ alloc := hle
          linarith [this]
        · intro t ht
          rcases List.mem_append.1 ht with h | h
          · exact htr t h
          · intro hty
            simp only [List.mem_singleton] at h
            subst h
            dsimp only
            rw [hcr]
            have : row.close_price * (1 + cfg.slippage) *
                (((⌊alloc / (row.close_price * (1 + cfg.slippage))⌋).fdiv 100 * 100 : ℤ) : ℚ)
                ≤ alloc := hle
            linarith
      · exact buyFold_cash_floor cfg hcr d alloc halloc l st (by linarith) htr

/-- With zero commission the whole buy pass only appends buy trades whose
`cash_after` is non-negative. -/
theorem buyPass_cash_safe (cfg : Config) (hcr : cfg.commission_rate = 0)
    (signals : Signals) (d : ℕ) (st : SimState)
    (htr : ∀ t ∈ st.trades, t.trade_type = TradeType.buy → 0 ≤ t.cash_after) :
    ∀ t ∈ (buyPass cfg signals d st).trades,
      t.trade_type = TradeType.buy → 0 ≤ t.cash_after := by
  unfold buyPass
  dsimp only
  split
  · rename_i h
    obtain ⟨hne, hcash⟩ := h
    have hlen : 0 < ((buyCandidates signals d st.positions cfg.stock_codes).length : ℚ) := by
      exact_mod_cast List.length_pos.2 hne
    have halloc : 0 < st.cash / ((buyCandidates signals d st.positions cfg.stock_codes).length : ℚ) :=
      div_pos (by linarith) hlen
    apply buyFold_cash_floor cfg hcr d _ halloc _ st ?_ htr
    rw [mul_comm, div_mul_cancel₀ _ (ne_of_gt hlen)]
  · exact htr

/-- Appending only sell trades preserves the buy cash-floor property. -/
theorem buySafe_of_sell_append {st' st : SimState}
    (hsh : ∃ n, st'.trades = st.trades ++ n ∧
      ∀ t ∈ n, t.trade_type = TradeType.sell)
    (h : ∀ t ∈ st.trades, t.trade_type = TradeType.buy → 0 ≤ t.cash_after) :
    ∀ t ∈ st'.trades, t.trade_type = TradeType.buy → 0 ≤ t.cash_after := by
  obtain ⟨n, hn, hq⟩ := hsh
  rw [hn]
  intro t ht hty
  rcases List.mem_append.1 ht with hm | hm
  · exact h t hm hty
  · exact absurd (hq t hm ▸ hty) (by rw [hq t hm] at hty; cases hty)

/-- C2 amended: with `commission_rate = 0` (and arbitrary slippage), no
executed buy ever drives cash below zero — every buy trade in the ledger

records a non-negative `cash_after`. -/
theorem C2_amended_buy_cash_floor (cfg : Config) (data : List PriceRow)
    (signals : Signals) (r : SimState) (hcr : cfg.commission_rate = 0)
    (h : simulate_trading cfg data signals = Except.ok r) :
    ∀ t ∈ r.trades, t.trade_type = TradeType.buy → 0 ≤ t.cash_after := by
  unfold simulate_trading at h
  cases hloop : simulateLoop cfg data signals with
  | error e => rw [hloop] at h; simp [Bind.bind, Except.bind] at h
  | ok st =>
    rw [hloop] at h
    simp only [Bind.bind, Except.bind] at h
    have hst : ∀ t ∈ st.trades, t.trade_type = TradeType.buy → 0 ≤ t.cash_after := by
      refine foldlM_preserve (P := fun s =>
        ∀ t ∈ s.trades, t.trade_type = TradeType.buy → 0 ≤ t.cash_after)
        (fun s d s' hok hP => ?_) _ _ _ hloop (by intro t ht; cases ht)
      obtain ⟨total, -, rfl⟩ := processDay_ok hok
      exact buyPass_cash_safe cfg hcr signals d _
        (buySafe_of_sell_append
          (by
            obtain ⟨n, hn, hq⟩ := sellPass_shape cfg signals d s
            exact ⟨n, hn, fun t ht => (hq t ht).1⟩) hP)
    split at h
    · split at h
      · simp at h
      · rename_i last_d heq
        cases h
        refine buySafe_of_sell_append ?_ hst
        obtain ⟨n, hn, hq⟩ := foldl_trades_ext (f := liqOne cfg data last_d)
          (Q := fun t => t.trade_type = TradeType.sell)
          (fun s c => by
            obtain ⟨m, hm, hqm⟩ := liqOne_shape cfg data last_d s c
            exact ⟨m, hm, fun t ht => (hqm t ht).1⟩) cfg.stock_codes st
        exact ⟨n, hn, hq⟩
    · cases h
      exact hst

/-! ## Valuation failures and loop decomposition -/

theorem valueHeld_ok_priced {data : List PriceRow} {d : ℕ} {pos : ℕ → ℤ} :
    ∀ (codes : List ℕ) (acc v : ℚ),
      valueHeld data d pos codes acc = Except.ok v →
      ∀ c ∈ codes, 0 < pos c → (priceLookup data d c).isSome := by
  intro codes
  induction codes with
  | nil => intro acc v _ c hc; cases hc
  | cons code rest ih =>
      intro acc v h c hc hpos
      unfold valueHeld at h
      rcases List.mem_cons.1 hc with rfl | hm
      · rw [if_pos hpos] at h
        cases hp : priceLookup data d c with
        | none => rw [hp] at h; cases h
        | some p => simp [hp]
      · by_cases hpc : 0 < pos code
        · rw [if_pos hpc] at h
          cases hp : priceLookup data d code with
          | none => rw [hp] at h; cases h
          | some p =>
              rw [hp] at h
              exact ih _ _ h c hm hpos
        · rw [if_neg hpc] at h
          exact ih _ _ h c hm hpos


theorem valueHeld_error_of_unpriced {data : List PriceRow} {d : ℕ}
    {pos : ℕ → ℤ} :
    ∀ (codes : List ℕ) (acc : ℚ),
      (∃ c ∈ codes, 0 < pos c ∧ priceLookup data d c = none) →
      ∃ c', valueHeld data d pos codes acc =
        Except.error (SimError.missingPrice c' d) := by
  intro codes
  induction codes with
  | nil => intro acc h; obtain ⟨c, hc, -⟩ := h; cases hc
  | cons code rest ih =>
      intro acc h
      unfold valueHeld
      by_cases hpc : 0 < pos code
      · rw [if_pos hpc]
        cases hp : priceLookup data d code with
        | none => exact ⟨code, rfl⟩
        | some p =>
            apply ih
            obtain ⟨c, hc, hcp, hcn⟩ := h
            rcases List.mem_cons.1 hc with rfl | hm
            · rw [hp] at hcn; cases hcn
            · exact ⟨c, hm, hcp, hcn⟩
      · rw [if_neg hpc]
        apply ih
        obtain ⟨c, hc, hcp, hcn⟩ := h
        rcases List.mem_cons.1 hc with rfl | hm
        · exact absurd hcp hpc
        · exact ⟨c, hm, hcp, hcn⟩


theorem processDay_error_of_unpriced {cfg : Config} {data : List PriceRow}
    {signals : Signals} {st : SimState} {d : ℕ}
    (h : ∃ c ∈ cfg.stock_codes,
      0 < (buyPass cfg signals d (sellPass cfg signals d st)).positions c ∧
      priceLookup data d c = none) :
    ∃ c', processDay cfg data signals st d =
      Except.error (SimError.missingPrice c' d) := by
  obtain ⟨c', hv⟩ := valueHeld_error_of_unpriced cfg.stock_codes
    (buyPass cfg signals d (sellPass cfg signals d st)).cash h
  refine ⟨c', ?_⟩
  unfold processDay
  dsimp only
  rw [hv]


theorem foldlM_error {α : Type} {f : SimState → α → Except SimError SimState}
    {st : SimState} {x : α} {l : List α} {e : SimError}
    (h : f st x = Except.error e) :
    List.foldlM f st (x :: l) = Except.error e := by
  rw [List.foldlM_cons, h]
  rfl


theorem simulateLoop_error_mid {cfg : Config} {data : List PriceRow}
    {signals : Signals} {l1 : List ℕ} {d : ℕ} {l2 : List ℕ} {st0 : SimState}
    {e : SimError}
    (hdates : tradeDates data = l1 ++ d :: l2)
    (h1 : List.foldlM (processDay cfg data signals) (simInit cfg) l1 =
      Except.ok st0)
    (h2 : processDay cfg data signals st0 d = Except.error e) :
    simulateLoop cfg data signals = Except.error e := by
  unfold simulateLoop
  rw [hdates, List.foldlM_append, h1]
  show List.foldlM (processDay cfg data signals) st0 (d :: l2) = Except.error e
  exact foldlM_error h2


theorem simulate_error_of_loop_error {cfg : Config} {data : List PriceRow}
    {signals : Signals} {e : SimError}
    (h : simulateLoop cfg data signals = Except.error e) :
    simulate_trading cfg data signals = Except.error e := by
  unfold simulate_trading
  rw [h]
  rfl


theorem simulate_ok_loop_ok {cfg : Config} {data : List PriceRow}
    {signals : Signals} {r : SimState}
    (h : simulate_trading cfg data signals = Except.ok r) :
    ∃ st, simulateLoop cfg data signals = Except.ok st := by
  unfold simulate_trading at h
  cases hloop : simulateLoop cfg data signals with
  | error e => rw [hloop] at h; simp [Bind.bind, Except.bind] at h
  | ok st => exact ⟨st, rfl⟩


theorem simulateLoop_ok_last {cfg : Config} {data : List PriceRow}
    {signals : Signals} {st : SimState}
    (h : simulateLoop cfg data signals = Except.ok st)
    {l1 : List ℕ} {last : ℕ} (hdates : tradeDates data = l1 ++ [last]) :
    ∃ st0, List.foldlM (processDay cfg data signals) (simInit cfg) l1 =
        Except.ok st0 ∧
      processDay cfg data signals st0 last = Except.ok st := by
  unfold simulateLoop at h
  rw [hdates, List.foldlM_append] at h
  cases h1 : List.foldlM (processDay cfg data signals) (simInit cfg) l1 with
  | error e => rw [h1] at h; simp [Bind.bind, Except.bind] at h
  | ok st0 =>
      rw [h1] at h
      simp only [Bind.bind, Except.bind] at h
      rw [List.foldlM_cons] at h
      cases h2 : processDay cfg data signals st0 last with
      | error e => rw [h2] at h; simp [Bind.bind, Except.bind] at h
      | ok s1 =>
          rw [h2] at h
          have hs : s1 = st := by
            simpa [Bind.bind, Except.bind, List.foldlM_nil, pure,
              Except.pure] using h
          subst hs
          exact ⟨st0, h1 ▸ rfl, h2⟩


theorem posOK_loop {cfg : Config} {data : List PriceRow} {signals : Signals}
    {st : SimState} (h : simulateLoop cfg data signals = Except.ok st) :
    PosOK st :=
  foldlM_preserve (fun _ _ _ hok hP => posOK_processDay hok hP) _ _ st h
    (posOK_simInit cfg)


theorem loop_pos_dates_ne {cfg : Config} {data : List PriceRow}
    {signals : Signals} {st : SimState}
    (h : simulateLoop cfg data signals = Except.ok st) (c : ℕ)
    (hpos : 0 < st.positions c) : tradeDates data ≠ [] := by
  intro hnil
  unfold simulateLoop at h
  rw [hnil] at h
  simp only [List.foldlM_nil, pure, Except.pure, Except.ok.injEq] at h
  rw [← h] at hpos
  exact absurd hpos (by simp [simInit])


theorem loop_ok_held_priced {cfg : Config} {data : List PriceRow}
    {signals : Signals} {st : SimState}
    (h : simulateLoop cfg data signals = Except.ok st) :
    ∀ c ∈ cfg.stock_codes, 0 < st.positions c →
      ∃ last, (tradeDates data).getLast? = some last ∧
        (priceLookup data last c).isSome := by
  intro c hc hpos
  have hne := loop_pos_dates_ne h c hpos
  rcases List.eq_nil_or_concat (tradeDates data) with hnil | ⟨l1, last, hdec⟩
  · exact absurd hnil hne
  · rw [List.concat_eq_append] at hdec
    obtain ⟨st0, h1, h2⟩ := simulateLoop_ok_last h hdec
    obtain ⟨total, hval, hst⟩ := processDay_ok h2
    refine ⟨last, by rw [hdec]; exact List.getLast?_concat _, ?_⟩
    refine valueHeld_ok_priced cfg.stock_codes _ _ hval c hc ?_
    rw [hst] at hpos
    exact hpos

/-! ## Forced liquidation closes every priced position -/

theorem liqOne_pos_other (cfg : Config) (data : List PriceRow) (last_d : ℕ)
    (st : SimState) (code c : ℕ) :
    (liqOne cfg data last_d st code).positions c = st.positions c ∨
    (liqOne cfg data last_d st code).positions c = 0 := by
  unfold liqOne
  dsimp only
  repeat' split
  · exact Or.inl rfl
  · exact Or.inl rfl
  · dsimp only
    split
    · exact Or.inr rfl
    · exact Or.inl rfl


theorem liqOne_pos_self (cfg : Config) (data : List PriceRow) (last_d : ℕ)
    (st : SimState) (code : ℕ) (hnn : 0 ≤ st.positions code)
    (hpr : 0 < st.positions code → (priceLookup data last_d code).isSome) :
    (liqOne cfg data last_d st code).positions code = 0 := by
  unfold liqOne
  dsimp only
  split
  · rename_i hle
    omega
  · rename_i hle
    have hpos : 0 < st.positions code := by omega
    cases hp : priceLookup data last_d code with
    | none => rw [hp] at hpr; exact absurd (hpr hpos) (by simp)
    | some p => dsimp only; rw [if_pos rfl]


theorem liqFold_zero (cfg : Config) (data : List PriceRow) (last_d : ℕ) :
    ∀ (l : List ℕ) (st : SimState),
      (∀ c, 0 ≤ st.positions c) →
      (∀ c ∈ l, 0 < st.positions c → (priceLookup data last_d c).isSome) →
      (∀ c ∈ l, (List.foldl (liqOne cfg data last_d) st l).positions c = 0) ∧
      (∀ c, (List.foldl (liqOne cfg data last_d) st l).positions c =
          st.positions c ∨
        (List.foldl (liqOne cfg data last_d) st l).positions c = 0)
  | [], st, _, _ => ⟨fun c hc => absurd hc (List.not_mem_nil c), fun _ => Or.inl rfl⟩
  | c0 :: l, st, hnn, hpr => by
      rw [List.foldl_cons]
      have hself : (liqOne cfg data last_d st c0).positions c0 = 0 :=
        liqOne_pos_self cfg data last_d st c0 (hnn c0)
          (hpr c0 (List.mem_cons_self c0 l))
      have hother := liqOne_pos_other cfg data last_d st c0
      have hnn1 : ∀ c, 0 ≤ (liqOne cfg data last_d st c0).positions c := by
        intro c
        rcases hother c with h | h
        · rw [h]; exact hnn c
        · rw [h]
      have hpr1 : ∀ c ∈ l, 0 < (liqOne cfg data last_d st c0).positions c →
          (priceLookup data last_d c).isSome := by
        intro c hc hp
        rcases hother c with h | h
        · exact hpr c (List.mem_cons_of_mem c0 hc) (h ▸ hp)
        · rw [h] at hp; exact absurd hp (lt_irrefl 0)
      obtain ⟨hall, hor⟩ := liqFold_zero cfg data last_d l
        (liqOne cfg data last_d st c0) hnn1 hpr1
      refine ⟨?_, ?_⟩
      · intro c hc
        rcases List.mem_cons.1 hc with rfl | hm
        · rcases hor c with h | h
          · rw [h, hself]
          · exact h
        · exact hall c hm
      · intro c
        rcases hor c with h | h
        · rcases hother c with h' | h'
          · exact Or.inl (h.trans h')
          · exact Or.inr (h.trans h')
        · exact Or.inr h


theorem forcedLiq_zero {cfg : Config} {data : List PriceRow} {last_d : ℕ}
    {st : SimState} (hnn : ∀ c, 0 ≤ st.positions c)
    (hpr : ∀ c ∈ cfg.stock_codes, 0 < st.positions c →
      (priceLookup data last_d c).isSome) :
    ∀ c ∈ cfg.stock_codes,
      (forcedLiquidation cfg data last_d st).positions c = 0 :=
  fun c hc => (liqFold_zero cfg data last_d cfg.stock_codes st hnn hpr).1 c hc

/-! ## The portfolio history along the loop -/

theorem liqFold_history (cfg : Config) (data : List PriceRow) (last_d : ℕ)
    (l : List ℕ) (st : SimState) :
    (List.foldl (liqOne cfg data last_d) st l).history = st.history := by
  induction l generalizing st with
  | nil => rfl
  | cons c l ih => rw [List.foldl_cons, ih, liqOne_history]


theorem loop_history {cfg : Config} {data : List PriceRow}
    {signals : Signals} :
    ∀ (l : List ℕ) (st st' : SimState),
      List.foldlM (processDay cfg data signals) st l = Except.ok st' →
      ∃ hs, st'.history = st.history ++ hs ∧ hs.map Snapshot.date = l := by
  intro l
  induction l with
  | nil =>
      intro st st' h
      simp only [List.foldlM_nil, pure, Except.pure, Except.ok.injEq] at h
      exact ⟨[], by simp [← h], rfl⟩
  | cons d l ih =>
      intro st st' h
      rw [List.foldlM_cons] at h
      cases h1 : processDay cfg data signals st d with
      | error e => rw [h1] at h; simp [Bind.bind, Except.bind] at h
      | ok s1 =>
          rw [h1] at h
          simp only [Bind.bind, Except.bind] at h
          obtain ⟨total, -, hs1⟩ := processDay_ok h1
          obtain ⟨hs, hh, hmap⟩ := ih s1 st' h
          refine ⟨{ date := d, total := total } :: hs, ?_, by simp [hmap]⟩
          rw [hh, hs1]
          simp [buyPass_history, sellPass_history]


theorem loop_last_snapshot {cfg : Config} {data : List PriceRow}
    {signals : Signals} {st : SimState} {last : ℕ}
    (h : simulateLoop cfg data signals = Except.ok st)
    (hlast : (tradeDates data).getLast? = some last) :
    ∃ s, st.history.getLast? = some s ∧ s.date = last := by
  obtain ⟨hs, hh, hmap⟩ := loop_history (tradeDates data) (simInit cfg) st h
  have hml : (hs.map Snapshot.date).getLast? = some last := by
    rw [hmap]; exact hlast
  rw [List.getLast?_map] at hml
  cases hgl : hs.getLast? with
  | none => rw [hgl] at hml; cases hml
  | some s =>
      rw [hgl] at hml
      simp only [Option.map_some', Option.some.injEq] at hml
      refine ⟨s, ?_, hml⟩
      rw [hh]
      show ((simInit cfg).history ++ hs).getLast? = some s
      simp only [simInit, List.nil_append]
      exact hgl


theorem fixHistory_getLast {last_d : ℕ} {cash : ℚ} {h : List Snapshot}
    {s : Snapshot} (hl : h.getLast? = some s) (hd : s.date = last_d) :
    (fixHistory last_d cash h).getLast? =
      some { date := last_d, total := cash } := by
  unfold fixHistory
  rw [hl]
  dsimp only
  rw [if_pos hd, hd]
  exact List.getLast?_concat _

/-! ## Claim theorems C3 and C4 -/

/-- C3: whenever the loop ends with some position still open, the run
force-liquidates: it succeeds, every instrument of the universe ends flat,
and the last snapshot records exactly the final cash at the last trading
date (the last snapshot is overwritten in place, or appended when no

snapshot carries the liquidation date). -/
theorem C3_forced_liquidation (cfg : Config) (data : List PriceRow)
    (signals : Signals) (st : SimState)
    (hok : simulateLoop cfg data signals = Except.ok st)
    (hopen : ∃ c ∈ cfg.stock_codes, 0 < st.positions c) :
    ∃ r last_d, simulate_trading cfg data signals = Except.ok r ∧
      (tradeDates data).getLast? = some last_d ∧
      (∀ c ∈ cfg.stock_codes, r.positions c = 0) ∧
      r.history.getLast? = some { date := last_d, total := r.cash } := by
  obtain ⟨c0, hc0, hpos0⟩ := hopen
  obtain ⟨last, hlast, -⟩ := loop_ok_held_priced hok c0 hc0 hpos0
  have hsim : simulate_trading cfg data signals =
      Except.ok (forcedLiquidation cfg data last st) := by
    unfold simulate_trading
    rw [hok]
    show (if ∃ c ∈ cfg.stock_codes, 0 < st.positions c then _ else _ :
      Except SimError SimState) = _
    rw [if_pos ⟨c0, hc0, hpos0⟩, hlast]
  have hnn : ∀ c, 0 ≤ st.positions c := fun c => (posOK_loop hok c).1
  have hpr : ∀ c ∈ cfg.stock_codes, 0 < st.positions c →
      (priceLookup data last c).isSome := by
    intro c hc hp
    obtain ⟨last', hlast', hsome⟩ := loop_ok_held_priced hok c hc hp
    rw [hlast] at hlast'
    cases hlast'
    exact hsome
  refine ⟨forcedLiquidation cfg data last st, last, hsim, hlast, ?_, ?_⟩
  · exact forcedLiq_zero hnn hpr
  · obtain ⟨s, hgl, hd⟩ := loop_last_snapshot hok hlast
    show (fixHistory last
        (List.foldl (liqOne cfg data last) st cfg.stock_codes).cash
        (List.foldl (liqOne cfg data last) st cfg.stock_codes).history).getLast?
      = _
    rw [liqFold_history]
    exact fixHistory_getLast hgl hd

/-- C4: a held position with no close price fails the run loudly. If, on
any trading date, an instrument holds a position after that date's trades
but has no price row, the whole run returns a `missingPrice` error; and
conversely any successful run has liquidated every position (no silent

skip ever survives to the result). -/
theorem C4_missing_price_fails (cfg : Config) (data : List PriceRow)
    (signals : Signals) :
    (∀ (l1 : List ℕ) (d : ℕ) (l2 : List ℕ) (st0 : SimState) (c : ℕ),
      tradeDates data = l1 ++ d :: l2 →
      List.foldlM (processDay cfg data signals) (simInit cfg) l1 =
        Except.ok st0 →
      c ∈ cfg.stock_codes →
      0 < (buyPass cfg signals d (sellPass cfg signals d st0)).positions c →
      priceLookup data d c = none →
      ∃ c', simulate_trading cfg data signals =
        Except.error (SimError.missingPrice c' d)) ∧
    (∀ r, simulate_trading cfg data signals = Except.ok r →
      ∀ c ∈ cfg.stock_codes, r.positions c = 0) := by
  constructor
  · intro l1 d l2 st0 c hdates h1 hc hpos hnone
    obtain ⟨c', hpd⟩ := processDay_error_of_unpriced ⟨c, hc, hpos, hnone⟩
    exact ⟨c', simulate_error_of_loop_error (simulateLoop_error_mid hdates h1 hpd)⟩
  · intro r h c hc
    unfold simulate_trading at h
    cases hloop : simulateLoop cfg data signals with
    | error e => rw [hloop] at h; simp [Bind.bind, Except.bind] at h
    | ok st =>
        rw [hloop] at h
        simp only [Bind.bind, Except.bind] at h
        have hnn : ∀ c, 0 ≤ st.positions c := fun c => (posOK_loop hloop c).1
        split at h
        · rename_i hguard
          split at h
          · simp at h
          · rename_i last_d hlast
            cases h
            have hpr : ∀ c ∈ cfg.stock_codes, 0 < st.positions c →
                (priceLookup data last_d c).isSome := by
              intro c hc hp
              obtain ⟨last', hlast', hsome⟩ := loop_ok_held_priced hloop c hc hp
              rw [hlast] at hlast'
              cases hlast'
              exact hsome
            exact forcedLiq_zero hnn hpr c hc
        · rename_i hguard
          cases h
          push_neg at hguard
          have h1 := hguard c hc
          have h0 := hnn c
          omega

/-! ## Witness runs -/

theorem sig_hb : (SigAction.hold = SigAction.buy) = False := by decide

theorem sig_hs : (SigAction.hold = SigAction.sell) = False := by decide

theorem sig_bh : (SigAction.buy = SigAction.hold) = False := by decide

theorem sig_bs : (SigAction.buy = SigAction.sell) = False := by decide

theorem sig_sh : (SigAction.sell = SigAction.hold) = False := by decide

theorem sig_sb : (SigAction.sell = SigAction.buy) = False := by decide


theorem scenL_loop :
    (simulateLoop cfgL dataL sigsL).map (fun s => s.positions 0) =
      Except.ok 1000 := by
  norm_num [simulateLoop, simInit, tradeDates, insertAsc, List.foldlM,
    processDay, sellPass, buyPass, sellOne, buyOne, buyCandidates, valueHeld,
    lookupSignals, signalRowOn, priceLookup, List.foldl, cfgL, dataL, sigsL,
    Except.map, Except.bind, Bind.bind, Pure.pure, Except.pure, fdiv_1000]


theorem scenL_trades :
    (simulate_trading cfgL dataL sigsL).map SimState.trades = Except.ok
      [{ stock_code := 0, date := 1, trade_type := TradeType.buy, price := 10,
         quantity := 1000, amount := 10000, commission := 0, cash_after := 0 },
       { stock_code := 0, date := 1, trade_type := TradeType.sell, price := 10,
         quantity := 1000, amount := 10000, commission := 0,
         cash_after := 10000 }] := by
  norm_num [simulate_trading, simulateLoop, simInit, tradeDates, insertAsc,
    List.foldlM, processDay, sellPass, buyPass, sellOne, buyOne,
    buyCandidates, valueHeld, lookupSignals, signalRowOn, priceLookup,
    List.foldl, forcedLiquidation, liqOne, fixHistory, cfgL, dataL, sigsL,
    Except.map, Except.bind, Bind.bind, Pure.pure, Except.pure, fdiv_1000,
    sig_hb, sig_hs, sig_bh, sig_bs, sig_sh, sig_sb]


theorem scenM_day1 :
    (List.foldlM (processDay cfgM dataM sigsM) (simInit cfgM) [1]).map
      (fun s => (buyPass cfgM sigsM 2 (sellPass cfgM sigsM 2 s)).positions 0) =
      Except.ok 1000 := by
  norm_num [simInit, List.foldlM, processDay, sellPass, buyPass, sellOne,
    buyOne, buyCandidates, valueHeld, lookupSignals, signalRowOn, priceLookup,
    List.foldl, cfgM, dataM, sigsM, Except.map, Except.bind, Bind.bind,
    Pure.pure, Except.pure, fdiv_1000,
    sig_hb, sig_hs, sig_bh, sig_bs, sig_sh, sig_sb]

/-- Witness for C2's amended theorem: the zero-commission Scenario A run
succeeds and every buy trade in its ledger keeps cash non-negative. -/
theorem C2_witness :
    cfgA.commission_rate = 0 ∧
    ∃ r, simulate_trading cfgA dataA sigsA = Except.ok r ∧
      ∀ t ∈ r.trades, t.trade_type = TradeType.buy → 0 ≤ t.cash_after := by
  refine ⟨rfl, ?_⟩
  obtain ⟨r, hr, -⟩ := exceptMap_ok scenA_cash
  exact ⟨r, hr, C2_amended_buy_cash_floor cfgA dataA sigsA r rfl hr⟩

/-- Witness for C3: the one-date buy run ends its loop holding 1000 shares,
and forced liquidation leaves it flat with the last snapshot at cash. -/
theorem C3_witness :
    ∃ st, simulateLoop cfgL dataL sigsL = Except.ok st ∧
      ∃ r last_d, simulate_trading cfgL dataL sigsL = Except.ok r ∧
        (tradeDates dataL).getLast? = some last_d ∧
        (∀ c ∈ cfgL.stock_codes, r.positions c = 0) ∧
        r.history.getLast? = some { date := last_d, total := r.cash } := by
  obtain ⟨st, hst, hproj⟩ := exceptMap_ok scenL_loop
  have hpos : (0 : ℤ) < st.positions 0 := by
    have h : st.positions 0 = 1000 := hproj
    rw [h]; norm_num
  exact ⟨st, hst,
    C3_forced_liquidation cfgL dataL sigsL st hst ⟨0, by decide, hpos⟩⟩

/-- Witness for C4: in the `cfgM` run instrument 0 is held on date 2 with
no date-2 price row, and the whole run is rejected with a missing-price

error for date 2. -/
theorem C4_witness :
    ∃ st0, List.foldlM (processDay cfgM dataM sigsM) (simInit cfgM) [1] =
        Except.ok st0 ∧
      ∃ c', simulate_trading cfgM dataM sigsM =
        Except.error (SimError.missingPrice c' 2) := by
  obtain ⟨st0, hst0, hproj⟩ := exceptMap_ok scenM_day1
  have hpos : (0 : ℤ) <
      (buyPass cfgM sigsM 2 (sellPass cfgM sigsM 2 st0)).positions 0 := by
    have h : (buyPass cfgM sigsM 2 (sellPass cfgM sigsM 2 st0)).positions 0 =
        1000 := hproj
    rw [h]; norm_num
  exact ⟨st0, hst0,
    (C4_missing_price_fails cfgM dataM sigsM).1 [1] 2 [] st0 0 (by decide)
      hst0 (by decide) hpos (by decide)⟩

/-- Witness for C5: the replay law instantiated on the Scenario A run. -/
theorem C5_witness :
    ∃ r, simulate_trading cfgA dataA sigsA = Except.ok r ∧
      (replay (cfgA.initial_capital, fun _ => 0) r.trades).1 = r.cash ∧
      (∀ c, (replay (cfgA.initial_capital, fun _ => 0) r.trades).2 c =
        r.positions c) ∧
      CashChain (cfgA.initial_capital, fun _ => 0) r.trades := by
  obtain ⟨r, hr, -⟩ := exceptMap_ok scenA_cash
  exact ⟨r, hr, C5_replay_law cfgA dataA sigsA r hr⟩

/-- Witness for C6: the Scenario A loop state satisfies the lot-size
invariant at instrument 0. -/
theorem C6_witness :
    ∃ st, List.foldlM (processDay cfgA dataA sigsA) (simInit cfgA)
        (tradeDates dataA) = Except.ok st ∧
      0 ≤ st.positions 0 ∧ (100 : ℤ) ∣ st.positions 0 := by
  obtain ⟨r, hr, -⟩ := exceptMap_ok scenA_cash
  obtain ⟨st, hst⟩ := simulate_ok_loop_ok hr
  exact ⟨st, hst,
    (C6_positions_lot_multiples cfgA dataA sigsA).1 (tradeDates dataA) st hst 0⟩

/-- C7 counterexample: in the `cfgL` run the ledger is a buy followed by a
forced-liquidation sell bearing the same date, so a buy is appended before

a sell of the same date. -/
theorem C7_counterexample :
    ∃ t1 t2, (simulate_trading cfgL dataL sigsL).map SimState.trades =
        Except.ok [t1, t2] ∧
      t1.trade_type = TradeType.buy ∧ t2.trade_type = TradeType.sell ∧
      t1.date = t2.date :=
  ⟨_, _, scenL_trades, rfl, rfl, rfl⟩

/-! ## Ledger ordering -/


theorem mem_insertAsc (x y : ℕ) : ∀ (l : List ℕ),
    (y ∈ insertAsc x l ↔ y = x ∨ y ∈ l)
  | [] => by simp [insertAsc]
  | z :: zs => by
      unfold insertAsc
      split
      · simp [List.mem_cons]
        try tauto
      · split
        · rename_i hlt heq
          subst heq
          simp [List.mem_cons]
          try tauto
        · simp [List.mem_cons, mem_insertAsc x y zs]
          try tauto


theorem sorted_insertAsc (x : ℕ) : ∀ (l : List ℕ),
    List.Sorted (· < ·) l → List.Sorted (· < ·) (insertAsc x l)
  | [], _ => by simp [insertAsc]
  | z :: zs, h => by
      unfold insertAsc
      have hz := List.sorted_cons.1 h
      split
      · rename_i hxz
        refine List.sorted_cons.2 ⟨?_, h⟩
        intro b hb
        rcases List.mem_cons.1 hb with rfl | hm
        · exact hxz
        · exact lt_trans hxz (hz.1 b hm)
      · split
        · exact h
        · rename_i hlt heq
          have hzx : z < x := by omega
          refine List.sorted_cons.2 ⟨?_, sorted_insertAsc x zs hz.2⟩
          intro b hb
          rcases (mem_insertAsc x b zs).1 hb with rfl | hm
          · exact hzx
          · exact hz.1 b hm


theorem tradeDates_sorted (data : List PriceRow) :
    List.Sorted (· < ·) (tradeDates data) := by
  unfold tradeDates
  generalize (data.map (·.trade_date)) = l
  induction l with
  | nil => simp
  | cons a l ih => exact sorted_insertAsc a _ ih


theorem sorted_le_getLast : ∀ (l : List ℕ), List.Sorted (· < ·) l →
    ∀ x ∈ l, ∀ m, l.getLast? = some m → x ≤ m := by
  intro l
  induction l with
  | nil => intro _ x hx; cases hx
  | cons a t ih =>
      intro hs x hx m hm
      cases t with
      | nil =>
          simp only [List.getLast?_singleton, Option.some.injEq] at hm
          rcases List.mem_cons.1 hx with rfl | hx2
          · omega
          · cases hx2
      | cons b t2 =>
          rw [List.getLast?_cons_cons] at hm
          have hs' := List.sorted_cons.1 hs
          rcases List.mem_cons.1 hx with rfl | hm2
          · have hmem : m ∈ b :: t2 := List.mem_of_mem_getLast? hm
            exact le_of_lt (hs'.1 m hmem)
          · exact ih hs'.2 x hm2 m hm


theorem processDay_shape {cfg : Config} {data : List PriceRow}
    {signals : Signals} {st : SimState} {d : ℕ} {st' : SimState}
    (h : processDay cfg data signals st d = Except.ok st') :
    ∃ ns nb, st'.trades = st.trades ++ (ns ++ nb) ∧
      (∀ t ∈ ns, t.trade_type = TradeType.sell ∧ t.date = d) ∧
      (∀ t ∈ nb, t.trade_type = TradeType.buy ∧ t.date = d) := by
  obtain ⟨total, -, rfl⟩ := processDay_ok h
  obtain ⟨ns, hns, hqs⟩ := sellPass_shape cfg signals d st
  obtain ⟨nb, hnb, hqb⟩ := buyPass_shape cfg signals d (sellPass cfg signals d st)
  refine ⟨ns, nb, ?_, hqs, hqb⟩
  show (buyPass cfg signals d (sellPass cfg signals d st)).trades = _
  rw [hnb, hns, List.append_assoc]


theorem forcedLiq_shape (cfg : Config) (data : List PriceRow) (last_d : ℕ)
    (st : SimState) :
    ∃ n, (forcedLiquidation cfg data last_d st).trades = st.trades ++ n ∧
      ∀ t ∈ n, t.trade_type = TradeType.sell ∧ t.date = last_d := by
  obtain ⟨n, hn, hq⟩ := foldl_trades_ext (f := liqOne cfg data last_d)
    (Q := fun t => t.trade_type = TradeType.sell ∧ t.date = last_d)
    (fun s c => by
      obtain ⟨m, hm, hqm⟩ := liqOne_shape cfg data last_d s c
      exact ⟨m, hm, fun t ht => ⟨(hqm t ht).1, (hqm t ht).2.1⟩⟩)
    cfg.stock_codes st
  exact ⟨n, hn, hq⟩


theorem pairwise_of_mem_rel {α : Type} {R : α → α → Prop} :
    ∀ (l : List α), (∀ a ∈ l, ∀ b ∈ l, R a b) → List.Pairwise R l
  | [], _ => List.Pairwise.nil
  | a :: l, h =>
      List.Pairwise.cons
        (fun b hb => h a (List.mem_cons_self a l) b (List.mem_cons_of_mem a hb))
        (pairwise_of_mem_rel l
          (fun x hx y hy =>
            h x (List.mem_cons_of_mem a hx) y (List.mem_cons_of_mem a hy)))


theorem loop_ledger_ord {cfg : Config} {data : List PriceRow}
    {signals : Signals} :
    ∀ (l : List ℕ) (st st' : SimState),
      List.Sorted (· < ·) l →
      (∀ t ∈ st.trades, ∀ d ∈ l, t.date < d) →
      DatesMono st.trades → BuySellOrdOK st.trades →
      List.foldlM (processDay cfg data signals) st l = Except.ok st' →
      DatesMono st'.trades ∧ BuySellOrdOK st'.trades ∧
      (∀ t ∈ st'.trades, t ∈ st.trades ∨ t.date ∈ l) := by
  intro l
  induction l with
  | nil =>
      intro st st' _ _ hm hb h
      simp only [List.foldlM_nil, pure, Except.pure, Except.ok.injEq] at h
      subst h
      exact ⟨hm, hb, fun t ht => Or.inl ht⟩
  | cons d l ih =>
      intro st st' hsort hbefore hm hb h
      rw [List.foldlM_cons] at h
      cases h1 : processDay cfg data signals st d with
      | error e => rw [h1] at h; simp [Bind.bind, Except.bind] at h
      | ok s1 =>
          rw [h1] at h
          simp only [Bind.bind, Except.bind] at h
          obtain ⟨ns, nb, htr, hqs, hqb⟩ := processDay_shape h1
          have hsort' := List.sorted_cons.1 hsort
          have hnewdate : ∀ t ∈ ns ++ nb, t.date = d := by
            intro t ht
            rcases List.mem_append.1 ht with hm1 | hm1
            · exact (hqs t hm1).2
            · exact (hqb t hm1).2
          have hm1 : DatesMono s1.trades := by
            rw [htr]
            refine List.pairwise_append.2 ⟨hm, ?_, ?_⟩
            · exact pairwise_of_mem_rel _ (fun a ha b hb' => by
                rw [hnewdate a ha, hnewdate b hb'])
            · intro a ha b hb'
              rw [hnewdate b hb']
              exact le_of_lt (hbefore a ha d (List.mem_cons_self d l))
          have hb1 : BuySellOrdOK s1.trades := by
            rw [htr]
            refine List.pairwise_append.2 ⟨hb, ?_, ?_⟩
            · refine List.pairwise_append.2 ⟨?_, ?_, ?_⟩
              · exact pairwise_of_mem_rel _ (fun a ha b hb' hbuy hsell => by
                  rw [(hqs a ha).1] at hbuy
                  cases hbuy)
              · exact pairwise_of_mem_rel _ (fun a ha b hb' hbuy hsell => by
                  rw [(hqb b hb').1] at hsell
                  cases hsell)
              · intro a ha b _ hbuy _
                rw [(hqs a ha).1] at hbuy
                cases hbuy
            · intro a ha b hb' _ _
              rw [hnewdate b hb']
              exact ne_of_lt (hbefore a ha d (List.mem_cons_self d l))
          have hbefore1 : ∀ t ∈ s1.trades, ∀ d' ∈ l, t.date < d' := by
            intro t ht d' hd'
            rw [htr] at ht
            rcases List.mem_append.1 ht with hm2 | hm2
            · exact hbefore t hm2 d' (List.mem_cons_of_mem d hd')
            · rw [hnewdate t hm2]
              exact hsort'.1 d' hd'
          obtain ⟨hm2, hb2, hmem2⟩ := ih s1 st' hsort'.2 hbefore1 hm1 hb1 h
          refine ⟨hm2, hb2, ?_⟩
          intro t ht
          rcases hmem2 t ht with hin | hdl
          · rw [htr] at hin
            rcases List.mem_append.1 hin with hm3 | hm3
            · exact Or.inl hm3
            · exact Or.inr (by rw [hnewdate t hm3]; exact List.mem_cons_self d l)
          · exact Or.inr (List.mem_cons_of_mem d hdl)

/-- C10: in any successful run the trade dates of the ledger, read in
append order, are non-decreasing: the daily loop processes dates in
ascending order and forced-liquidation sells carry the last date and are

appended after every in-loop trade. -/
theorem C10_dates_monotone (cfg : Config) (data : List PriceRow)
    (signals : Signals) (r : SimState)
    (h : simulate_trading cfg data signals = Except.ok r) :
    DatesMono r.trades := by
  unfold simulate_trading at h
  cases hloop : simulateLoop cfg data signals with
  | error e => rw [hloop] at h; simp [Bind.bind, Except.bind] at h
  | ok st =>
    rw [hloop] at h
    simp only [Bind.bind, Except.bind] at h
    obtain ⟨hmono, -, hmemd⟩ := loop_ledger_ord (tradeDates data)
      (simInit cfg) st (tradeDates_sorted data)
      (by intro t ht; cases ht) List.Pairwise.nil List.Pairwise.nil hloop
    split at h
    · split at h
      · simp at h
      · rename_i last_d hlast
        cases h
        obtain ⟨n, hn, hq⟩ := forcedLiq_shape cfg data last_d st
        show DatesMono (forcedLiquidation cfg data last_d st).trades
        rw [hn]
        refine List.pairwise_append.2 ⟨hmono, ?_, ?_⟩
        · exact pairwise_of_mem_rel _ (fun a ha b hb => by
            rw [(hq a ha).2, (hq b hb).2])
        · intro a ha b hb
          rw [(hq b hb).2]
          rcases hmemd a ha with hin | hdate
          · cases hin
          · exact sorted_le_getLast (tradeDates data) (tradeDates_sorted data)
              a.date hdate last_d hlast
    · cases h
      exact hmono

/-- C7 amended: among the trades recorded by the daily loop, no buy is
ever appended before a sell of the same date (sells of a date precede its
buys); the full ledger extends the loop ledger only by forced-liquidation
sell trades, all dated at the last trading date — so a loop buy on the

last date may precede a forced-liquidation sell of the same date. -/
theorem C7_amended_loop_ordering (cfg : Config) (data : List PriceRow)
    (signals : Signals) (st : SimState)
    (hok : simulateLoop cfg data signals = Except.ok st) :
    BuySellOrdOK st.trades ∧
    ∀ r, simulate_trading cfg data signals = Except.ok r →
      ∃ liq, r.trades = st.trades ++ liq ∧
        (∀ t ∈ liq, t.trade_type = TradeType.sell) ∧
        (liq ≠ [] → ∃ last_d, (tradeDates data).getLast? = some last_d ∧
          ∀ t ∈ liq, t.date = last_d) := by
  constructor
  · exact (loop_ledger_ord (tradeDates data) (simInit cfg) st
      (tradeDates_sorted data) (by intro t ht; cases ht)
      List.Pairwise.nil List.Pairwise.nil hok).2.1
  · intro r h
    unfold simulate_trading at h
    rw [hok] at h
    simp only [Bind.bind, Except.bind] at h
    split at h
    · split at h
      · simp at h
      · rename_i last_d hlast
        cases h
        obtain ⟨n, hn, hq⟩ := forcedLiq_shape cfg data last_d st
        exact ⟨n, hn, fun t ht => (hq t ht).1,
          fun _ => ⟨last_d, hlast, fun t ht => (hq t ht).2⟩⟩
    · cases h
      exact ⟨[], by simp, fun t ht => absurd ht (List.not_mem_nil t),
        fun hne => absurd rfl hne⟩

/-- Witness for C7's amended theorem at the Scenario A run. -/
theorem C7_witness :
    ∃ st, simulateLoop cfgA dataA sigsA = Except.ok st ∧
      BuySellOrdOK st.trades := by
  obtain ⟨r, hr, -⟩ := exceptMap_ok scenA_cash
  obtain ⟨st, hst⟩ := simulate_ok_loop_ok hr
  exact ⟨st, hst, (C7_amended_loop_ordering cfgA dataA sigsA st hst).1⟩

/-- Witness for C10 at the forced-liquidation run. -/
theorem C10_witness :
    ∃ r, simulate_trading cfgL dataL sigsL = Except.ok r ∧
      DatesMono r.trades := by
  obtain ⟨r, hr, -⟩ := exceptMap_ok scenL_trades
  exact ⟨r, hr, C10_dates_monotone cfgL dataL sigsL r hr⟩

/-! ## The buy pass: equal split, lot rounding, no redistribution -/

theorem buyCandidates_mem {signals : Signals} {d : ℕ} {pos : ℕ → ℤ} :
    ∀ {codes : List ℕ} {code : ℕ} {row : SignalRow},
      (code, row) ∈ buyCandidates signals d pos codes → pos code = 0 := by
  intro codes
  induction codes with
  | nil => intro code row h; cases h
  | cons c0 rest ih =>
      intro code row h
      unfold buyCandidates at h
      dsimp only at h
      split at h
      · rename_i hp0
        split at h
        · exact ih h
        · split at h
          · exact ih h
          · split at h
            · rcases List.mem_cons.1 h with heq | hm
              · cases heq; exact hp0
              · exact ih hm
            · exact ih h
      · exact ih h


theorem buyCandidates_fst_sublist (signals : Signals) (d : ℕ) (pos : ℕ → ℤ) :
    ∀ (codes : List ℕ),
      ((buyCandidates signals d pos codes).map Prod.fst).Sublist codes := by
  intro codes
  induction codes with
  | nil => simp [buyCandidates]
  | cons c0 rest ih =>
      unfold buyCandidates
      dsimp only
      split
      · split
        · exact ih.cons c0
        · split
          · exact ih.cons c0
          · split
            · exact ih.cons₂ c0
            · exact ih.cons c0
      · exact ih.cons c0


theorem buyOne_positions_other (cfg : Config) (d : ℕ) (cap : ℚ)
    (st : SimState) (cand : ℕ × SignalRow) (c : ℕ) (hc : c ≠ cand.1) :
    (buyOne cfg d cap st cand).positions c = st.positions c := by
  unfold buyOne
  dsimp only
  split
  · dsimp only
    rw [if_neg hc]
  · rfl


theorem buyFold_positions_other (cfg : Config) (d : ℕ) (cap : ℚ) :
    ∀ (l : List (ℕ × SignalRow)) (st : SimState) (c : ℕ),
      c ∉ l.map Prod.fst →
      (List.foldl (buyOne cfg d cap) st l).positions c = st.positions c
  | [], _, _, _ => rfl
  | cand :: l, st, c, hc => by
      rw [List.foldl_cons]
      have hc1 : c ≠ cand.1 := by
        intro h
        exact hc (by rw [List.map_cons, h]; exact List.mem_cons_self _ _)
      have hc2 : c ∉ l.map Prod.fst := by
        intro h
        exact hc (by rw [List.map_cons]; exact List.mem_cons_of_mem _ h)
      rw [buyFold_positions_other cfg d cap l _ c hc2,
        buyOne_positions_other cfg d cap st cand c hc1]


theorem buyFold_trades_codes (cfg : Config) (d : ℕ) (cap : ℚ) :
    ∀ (l : List (ℕ × SignalRow)) (st : SimState),
      ∀ t ∈ (List.foldl (buyOne cfg d cap) st l).trades,
        t ∈ st.trades ∨ t.stock_code ∈ l.map Prod.fst
  | [], _, t, ht => Or.inl ht
  | cand :: l, st, t, ht => by
      rw [List.foldl_cons] at ht
      rcases buyFold_trades_codes cfg d cap l _ t ht with hin | hm
      · obtain ⟨m, hmeq, hq⟩ := buyOne_shape cfg d cap st cand
        rw [hmeq] at hin
        rcases List.mem_append.1 hin with h | h
        · exact Or.inl h
        · refine Or.inr ?_
          rw [List.map_cons, (hq t h).2.2]
          exact List.mem_cons_self _ _
      · exact Or.inr (by rw [List.map_cons]; exact List.mem_cons_of_mem _ hm)


theorem buyOne_self (cfg : Config) (d : ℕ) (cap : ℚ) (st : SimState)
    (code : ℕ) (row : SignalRow) :
    (100 ≤ (⌊cap / (row.close_price * (1 + cfg.slippage))⌋).fdiv 100 * 100 →
      (buyOne cfg d cap st (code, row)).positions code =
        (⌊cap / (row.close_price * (1 + cfg.slippage))⌋).fdiv 100 * 100) ∧
    ((⌊cap / (row.close_price * (1 + cfg.slippage))⌋).fdiv 100 * 100 < 100 →
      buyOne cfg d cap st (code, row) = st) := by
  unfold buyOne
  dsimp only
  split
  · rename_i hq
    refine ⟨fun _ => by dsimp only; rw [if_pos rfl], fun hlt => absurd hq (not_le.2 hlt)⟩
  · rename_i hq
    exact ⟨fun hge => absurd hge hq, fun _ => rfl⟩

/-- C1: the buy pass runs only when the same-day candidate set is
non-empty and cash exceeds 1; it splits the post-sell cash equally, each
candidate's quantity being the floor of its allocation over the execution
price rounded down to a lot multiple — computed from the pass-entry cash
regardless of the other candidates — and a candidate below one lot stays

flat with no trade appended, its allocation simply unused. -/
theorem C1_equal_split_buy_pass (cfg : Config) (signals : Signals) (d : ℕ)
    (st : SimState) (hnd : cfg.stock_codes.Nodup) :
    ((buyCandidates signals d st.positions cfg.stock_codes = [] ∨ st.cash ≤ 1) →
      buyPass cfg signals d st = st) ∧
    ∀ code row,
      (code, row) ∈ buyCandidates signals d st.positions cfg.stock_codes →
      1 < st.cash →
      (100 ≤ (⌊st.cash /
            ((buyCandidates signals d st.positions cfg.stock_codes).length : ℚ) /
            (row.close_price * (1 + cfg.slippage))⌋).fdiv 100 * 100 →
        (buyPass cfg signals d st).positions code =
          (⌊st.cash /
            ((buyCandidates signals d st.positions cfg.stock_codes).length : ℚ) /
            (row.close_price * (1 + cfg.slippage))⌋).fdiv 100 * 100) ∧
      ((⌊st.cash /
            ((buyCandidates signals d st.positions cfg.stock_codes).length : ℚ) /
            (row.close_price * (1 + cfg.slippage))⌋).fdiv 100 * 100 < 100 →
        (buyPass cfg signals d st).positions code = 0 ∧
        ∀ t ∈ (buyPass cfg signals d st).trades,
          t ∈ st.trades ∨ t.stock_code ≠ code) := by
  constructor
  · intro hA
    unfold buyPass
    dsimp only
    split
    · rename_i hg
      rcases hA with hnil | hle
      · exact absurd hnil hg.1
      · exact absurd hg.2 (not_lt.2 hle)
    · rfl
  · intro code row hmem hcash
    have hne : buyCandidates signals d st.positions cfg.stock_codes ≠ [] := by
      intro h
      rw [h] at hmem
      cases hmem
    set cap := st.cash /
      ((buyCandidates signals d st.positions cfg.stock_codes).length : ℚ) with hcap
    have hbp : buyPass cfg signals d st =
        (buyCandidates signals d st.positions cfg.stock_codes).foldl
          (buyOne cfg d cap) st := by
      unfold buyPass
      dsimp only
      rw [if_pos ⟨hne, hcash⟩, hcap]
    obtain ⟨l1, l2, hdec⟩ := List.append_of_mem hmem
    have hnd' : ((buyCandidates signals d st.positions
        cfg.stock_codes).map Prod.fst).Nodup :=
      List.Nodup.sublist
        (buyCandidates_fst_sublist signals d st.positions cfg.stock_codes) hnd
    have h1 : code ∉ l1.map Prod.fst ∧ code ∉ l2.map Prod.fst := by
      rw [hdec, List.map_append, List.map_cons] at hnd'
      obtain ⟨hn1, hn2, hdisj⟩ := List.nodup_append.1 hnd'
      exact ⟨fun hc => hdisj hc (List.mem_cons_self _ _),
        (List.nodup_cons.1 hn2).1⟩
    have hfold : (buyCandidates signals d st.positions
          cfg.stock_codes).foldl (buyOne cfg d cap) st =
        List.foldl (buyOne cfg d cap)
          (buyOne cfg d cap (List.foldl (buyOne cfg d cap) st l1)
            (code, row)) l2 := by
      rw [hdec, List.foldl_append, List.foldl_cons]
    have hst1 : (List.foldl (buyOne cfg d cap) st l1).positions code = 0 := by
      rw [buyFold_positions_other cfg d cap l1 st code h1.1]
      exact buyCandidates_mem hmem
    constructor
    · intro hq
      rw [hbp, hfold, buyFold_positions_other cfg d cap l2 _ code h1.2,
        (buyOne_self cfg d cap _ code row).1 hq]
    · intro hq
      have hstep : buyOne cfg d cap
          (List.foldl (buyOne cfg d cap) st l1) (code, row) =
          List.foldl (buyOne cfg d cap) st l1 :=
        (buyOne_self cfg d cap _ code row).2 hq
      constructor
      · rw [hbp, hfold, hstep,
          buyFold_positions_other cfg d cap l2 _ code h1.2, hst1]
      · intro t ht
        rw [hbp, hfold, hstep] at ht
        rcases buyFold_trades_codes cfg d cap l2 _ t ht with hin | hm
        · rcases buyFold_trades_codes cfg d cap l1 _ t hin with hin2 | hm2
          · exact Or.inl hin2
          · exact Or.inr (fun hcc => h1.1 (hcc ▸ hm2))
        · exact Or.inr (fun hcc => h1.2 (hcc ▸ hm))


theorem scenW_cands :
    buyCandidates sigsW 1 stW.positions cfgW.stock_codes =
      [(0, ⟨1, SigAction.buy, 40⟩), (1, ⟨1, SigAction.buy, 60⟩)] := by
  norm_num [buyCandidates, lookupSignals, signalRowOn, sigsW, cfgW, stW]

/-- Witness for C1: with 10000 cash split over two candidates (5000 each),
the price-40 candidate buys one lot (100 shares) while the price-60
candidate's rounded quantity (⌊5000/60⌋ → 0 lots) is below one lot, so it

stays flat and no trade carries its code. -/
theorem C1_witness :
    (buyPass cfgW sigsW 1 stW).positions 0 = 100 ∧
    (buyPass cfgW sigsW 1 stW).positions 1 = 0 ∧
    ∀ t ∈ (buyPass cfgW sigsW 1 stW).trades,
      t ∈ stW.trades ∨ t.stock_code ≠ 1 := by
  have h := C1_equal_split_buy_pass cfgW sigsW 1 stW (by decide)
  have hmem0 : ((0 : ℕ), (⟨1, SigAction.buy, 40⟩ : SignalRow)) ∈
      buyCandidates sigsW 1 stW.positions cfgW.stock_codes := by
    rw [scenW_cands]
    exact List.mem_cons_self _ _
  have hmem1 : ((1 : ℕ), (⟨1, SigAction.buy, 60⟩ : SignalRow)) ∈
      buyCandidates sigsW 1 stW.positions cfgW.stock_codes := by
    rw [scenW_cands]
    exact List.mem_cons_of_mem _ (List.mem_cons_self _ _)
  have hlen : ((buyCandidates sigsW 1 stW.positions cfgW.stock_codes).length : ℚ) = 2 := by
    rw [scenW_cands]
    norm_num
  have hq0 : (⌊stW.cash /
      ((buyCandidates sigsW 1 stW.positions cfgW.stock_codes).length : ℚ) /
      ((⟨1, SigAction.buy, 40⟩ : SignalRow).close_price *
        (1 + cfgW.slippage))⌋).fdiv 100 * 100 = 100 := by
    rw [hlen]
    norm_num [stW, cfgW, fdiv_125]
  have hq1 : (⌊stW.cash /
      ((buyCandidates sigsW 1 stW.positions cfgW.stock_codes).length : ℚ) /
      ((⟨1, SigAction.buy, 60⟩ : SignalRow).close_price *
        (1 + cfgW.slippage))⌋).fdiv 100 * 100 = 0 := by
    rw [hlen]
    norm_num [stW, cfgW, floor_250_3, fdiv_83]
  have hcash : (1 : ℚ) < stW.cash := by norm_num [stW]
  have h0 := (h.2 0 ⟨1, SigAction.buy, 40⟩ hmem0 hcash).1 (le_of_eq hq0.symm)
  have h1 := (h.2 1 ⟨1, SigAction.buy, 60⟩ hmem1 hcash).2
    (by rw [hq1]; norm_num)
  exact ⟨by rw [h0, hq0], h1.1, h1.2⟩
